import Mathlib

/-!
Verification of the `infopoisk` search engine core: varbyte/delta codec
(`search_engine/compression.py`), the SPIMI index writer
(`search_engine/indexer.py`), the compressed index reader and boolean query
engine (`search_engine/search.py`), and the tokenizer subprocess adapter
(`search_engine/tokenizer_wrapper.py`).

Bytes are modelled as natural numbers (the writers only produce values
< 256), Python byte strings as `List Nat`, Python text strings as
`List Char` (a Python `str` is a sequence of code points), and raising an
exception as returning `none`.
-/

/-! ## Varbyte / delta codec (`compression.py`) -/

/-- Loop body of `encode_varbyte`: `while number >= 128` emit the low seven
bits with the high bit set and shift right by 7; finally emit the remaining
byte.  The first argument is fuel (the loop runs at most `number` times, so
`number` itself is always enough fuel). -/
def encodeVarbyteGo : Nat → Nat → List Nat
  | 0, number => [number]
  | fuel + 1, number =>
    if number < 128 then [number]
    else ((number &&& 127) ||| 128) :: encodeVarbyteGo fuel (number >>> 7)

/-- `encode_varbyte` (compression.py lines 3-15) on a non-negative input:
zero encodes as the single byte `0x00`, otherwise 7 data bits per byte,
little-endian, high bit set on all but the final byte. -/
def encode_varbyte (number : Nat) : List Nat :=
  if number = 0 then [0] else encodeVarbyteGo number number

/-- `encode_varbyte` on a Python `int`, which raises `ValueError` on
negative input (modelled as `none`). -/
def encode_varbyte_int (number : Int) : Option (List Nat) :=
  if number < 0 then none else some (encode_varbyte number.toNat)

/-- Loop body of `decode_varbyte_stream`: walk the remaining bytes,
or-ing `(byte & 0x7F) << shift` into the accumulator, and stop at the
first byte with clear high bit; running off the end of the data is the
`IndexError("Unexpected end of byte stream")` case, modelled as `none`.
Returns the decoded value and the number of bytes consumed. -/
def decodeVarbyteGo : List Nat → Nat → Nat → Nat → Option (Nat × Nat)
  | [], _, _, _ => none
  | byte :: rest, consumed, number, shift =>
    if byte &&& 128 = 0 then some (number ||| ((byte &&& 127) <<< shift), consumed + 1)
    else decodeVarbyteGo rest (consumed + 1) (number ||| ((byte &&& 127) <<< shift)) (shift + 7)

/-- `decode_varbyte_stream` (compression.py lines 17-34): decode one varbyte
number starting at `offset`, returning the value and the new offset. -/
def decode_varbyte_stream (data : List Nat) (offset : Nat) : Option (Nat × Nat) :=
  (decodeVarbyteGo (data.drop offset) 0 0 0).map (fun p => (p.1, offset + p.2))

/-- `encode_delta` (compression.py lines 36-43): first value raw, then
successive differences, computed with Python integer subtraction. -/
def encodeDeltaGo : Int → List Int → List Int
  | _, [] => []
  | prev, y :: ys => (y - prev) :: encodeDeltaGo y ys

/-- `encode_delta` on a list of Python ints. -/
def encode_delta : List Int → List Int
  | [] => []
  | x :: xs => x :: encodeDeltaGo x xs

/-- The number of bits of `n` (`n.bit_length()` in Python terms):
0 for 0, otherwise `log2 n + 1`. -/
def bitsOf (n : Nat) : Nat := if n = 0 then 0 else n.log2 + 1

/-! ### Codec lemmas -/

theorem encodeVarbyteGo_fuel {fuel n : Nat} (h : n ≤ fuel) :
    encodeVarbyteGo fuel n = encodeVarbyteGo n n := by
  induction fuel using Nat.strong_induction_on generalizing n with
  | _ fuel ih =>
    match fuel with
    | 0 =>
      interval_cases n
      rfl
    | fuel + 1 =>
      by_cases hn : n < 128
      · cases n with
        | zero => simp [encodeVarbyteGo, hn]
        | succ m => simp [encodeVarbyteGo, hn]
      · have h128 : 128 ≤ n := Nat.le_of_not_lt hn
        have hdiv : n >>> 7 ≤ fuel := by
          have h1 : n >>> 7 = n / 128 := by
            rw [Nat.shiftRight_eq_div_pow]
          have h2 : n / 128 < n := Nat.div_lt_self (by omega) (by omega)
          omega
        have hne : n ≠ 0 := by omega
        obtain ⟨m, rfl⟩ : ∃ m, n = m + 1 := ⟨n - 1, by omega⟩
        simp only [encodeVarbyteGo, hn, if_false]
        rw [ih fuel (by omega) hdiv,
          ih m (by omega) (by omega)]

theorem encode_varbyte_small {n : Nat} (h : n < 128) : encode_varbyte n = [n] := by
  by_cases h0 : n = 0
  · subst h0; rfl
  · obtain ⟨m, rfl⟩ : ∃ m, n = m + 1 := ⟨n - 1, by omega⟩
    simp [encode_varbyte, encodeVarbyteGo, h]

theorem encode_varbyte_large {n : Nat} (h : 128 ≤ n) :
    encode_varbyte n = ((n &&& 127) ||| 128) :: encode_varbyte (n >>> 7) := by
  have hne : n ≠ 0 := by omega
  have hs : n >>> 7 = n / 128 := by rw [Nat.shiftRight_eq_div_pow]
  have hsne : n >>> 7 ≠ 0 := by
    rw [hs]; exact Nat.ne_of_gt (Nat.div_pos h (by omega))
  obtain ⟨m, rfl⟩ : ∃ m, n = m + 1 := ⟨n - 1, by omega⟩
  simp only [encode_varbyte, hne, if_false, hsne]
  have : encodeVarbyteGo (m + 1) (m + 1) =
      ((m + 1 &&& 127) ||| 128) :: encodeVarbyteGo m ((m + 1) >>> 7) := by
    simp [encodeVarbyteGo, Nat.not_lt.mpr h]
  rw [this, encodeVarbyteGo_fuel]
  have : (m + 1) >>> 7 = (m + 1) / 128 := by rw [Nat.shiftRight_eq_div_pow]
  omega

/-- Or-ing a value shifted past the width of the accumulator is addition. -/
theorem lor_shiftLeft_eq_add {a m s : Nat} (h : a < 2 ^ s) :
    a ||| (m <<< s) = a + m * 2 ^ s := by
  have hadd : a + m * 2 ^ s = 2 ^ s * m + a := by ring
  apply Nat.eq_of_testBit_eq
  intro j
  rw [hadd, Nat.testBit_mul_pow_two_add m h j, Nat.testBit_lor,
    Nat.testBit_shiftLeft]
  by_cases hj : j < s
  · simp [hj, Nat.not_le.mpr hj]
  · have hge : j ≥ s := Nat.le_of_not_lt hj
    have : a < 2 ^ j := lt_of_lt_of_le h (Nat.pow_le_pow_right (by omega) hge)
    simp [hj, hge, Nat.testBit_lt_two_pow this]

theorem land_127_eq_mod (n : Nat) : n &&& 127 = n % 128 := by
  have := Nat.and_pow_two_sub_one_eq_mod n 7
  norm_num at this
  exact this

theorem land_128_eq_zero {n : Nat} (h : n < 128) : n &&& 128 = 0 := by
  have h128 : (128 : Nat) = 2 ^ 7 := by norm_num
  rw [h128, Nat.and_two_pow, Nat.testBit_lt_two_pow (by norm_num at h128 ⊢; omega)]
  rfl

theorem lor_128_eq_add {x : Nat} (h : x < 128) : x ||| 128 = x + 128 := by
  have h7 : x < 2 ^ 7 := by norm_num; omega
  have := lor_shiftLeft_eq_add (m := 1) h7
  norm_num at this
  exact this

theorem contByte_land_128 {x : Nat} : (x ||| 128) &&& 128 = 128 := by
  have hbit : (x ||| 128).testBit 7 = true := by
    rw [Nat.testBit_lor]
    have h1 : Nat.testBit 128 7 = true := by decide
    simp [h1]
  rw [show (128 : Nat) = 2 ^ 7 from by norm_num, Nat.and_two_pow]
  norm_num at hbit ⊢
  exact hbit

theorem contByte_land_127 {x : Nat} (h : x < 128) : (x ||| 128) &&& 127 = x := by
  rw [lor_128_eq_add h, land_127_eq_mod]
  omega

theorem encode_varbyte_ne_nil (n : Nat) : encode_varbyte n ≠ [] := by
  by_cases h : n < 128
  · rw [encode_varbyte_small h]; simp
  · rw [encode_varbyte_large (Nat.le_of_not_lt h)]; simp

theorem decodeVarbyteGo_encode {n : Nat} :
    ∀ {tail : List Nat} {consumed acc shift : Nat}, acc < 2 ^ shift →
      decodeVarbyteGo (encode_varbyte n ++ tail) consumed acc shift =
        some (acc + n * 2 ^ shift, consumed + (encode_varbyte n).length) := by
  induction n using Nat.strong_induction_on with
  | _ n ih =>
    intro tail consumed acc shift hacc
    by_cases h : n < 128
    · rw [encode_varbyte_small h]
      have hland : n &&& 127 = n := by rw [land_127_eq_mod]; omega
      have hstop : n &&& 128 = 0 := land_128_eq_zero h
      simp only [List.cons_append, List.nil_append, decodeVarbyteGo, hland, hstop,
        if_true, List.length_cons, List.length_nil]
      rw [lor_shiftLeft_eq_add hacc]
    · have h128 : 128 ≤ n := Nat.le_of_not_lt h
      rw [encode_varbyte_large h128]
      have hmod : n &&& 127 = n % 128 := land_127_eq_mod n
      have hmlt : n % 128 < 128 := Nat.mod_lt n (by omega)
      have hstop : ((n &&& 127) ||| 128) &&& 128 = 128 := contByte_land_128
      have hcond : ¬(((n &&& 127) ||| 128) &&& 128 = 0) := by rw [hstop]; omega
      have hland : ((n &&& 127) ||| 128) &&& 127 = n &&& 127 :=
        contByte_land_127 (by omega)
      simp only [List.cons_append, decodeVarbyteGo]
      rw [if_neg hcond, hland]
      have hacc' : acc ||| ((n &&& 127) <<< shift) = acc + n % 128 * 2 ^ shift := by
        rw [hmod, lor_shiftLeft_eq_add hacc]
      rw [hacc']
      have hbound : acc + n % 128 * 2 ^ shift < 2 ^ (shift + 7) := by
        have h1 : acc + n % 128 * 2 ^ shift ≤ (2 ^ shift - 1) + 127 * 2 ^ shift := by
          have := Nat.pos_pow_of_pos shift (show 0 < 2 by omega)
          have h2 : n % 128 * 2 ^ shift ≤ 127 * 2 ^ shift :=
            Nat.mul_le_mul_right _ (by omega)
          omega
        have h3 : (2 ^ shift - 1) + 127 * 2 ^ shift < 2 ^ (shift + 7) := by
          have := Nat.pos_pow_of_pos shift (show 0 < 2 by omega)
          rw [pow_add]
          norm_num
          omega
        omega
      have hlt : n >>> 7 < n := by
        rw [Nat.shiftRight_eq_div_pow]
        exact Nat.div_lt_self (by omega) (by norm_num)
      simp only [List.append_eq]
      rw [ih (n >>> 7) hlt hbound]
      have hval : acc + n % 128 * 2 ^ shift + n >>> 7 * 2 ^ (shift + 7) =
          acc + n * 2 ^ shift := by
        rw [Nat.shiftRight_eq_div_pow, pow_add,
          show (2:Nat) ^ 7 = 128 from by norm_num]
        have hdm : 128 * (n / 128) + n % 128 = n := Nat.div_add_mod n 128
        calc acc + n % 128 * 2 ^ shift + n / 128 * (2 ^ shift * 128)
            = acc + (128 * (n / 128) + n % 128) * 2 ^ shift := by ring
          _ = acc + n * 2 ^ shift := by rw [hdm]
      rw [hval]
      simp only [List.length_cons]
      have hfin : consumed + 1 + (encode_varbyte (n >>> 7)).length =
          consumed + ((encode_varbyte (n >>> 7)).length + 1) := by omega
      rw [hfin]

/-- Decoding at an offset whose suffix starts with `encode_varbyte n`
recovers `n` and advances the offset by the encoding length. -/
theorem decode_encode_at {data : List Nat} {off n : Nat} {tail : List Nat}
    (h : data.drop off = encode_varbyte n ++ tail) :
    decode_varbyte_stream data off = some (n, off + (encode_varbyte n).length) := by
  unfold decode_varbyte_stream
  rw [h, decodeVarbyteGo_encode (show (0:Nat) < 2 ^ 0 by norm_num)]
  simp

theorem encode_varbyte_length (n : Nat) :
    (encode_varbyte n).length = max 1 ((bitsOf n + 6) / 7) := by
  induction n using Nat.strong_induction_on with
  | _ n ih =>
    by_cases h : n < 128
    · rw [encode_varbyte_small h]
      by_cases h0 : n = 0
      · subst h0; simp [bitsOf]
      · have hl : n.log2 < 7 := by
          rw [Nat.log2_lt h0]; norm_num; omega
        simp only [bitsOf, h0, if_false, List.length_cons, List.length_nil]
        omega
    · have h128 : 128 ≤ n := Nat.le_of_not_lt h
      have hne : n ≠ 0 := by omega
      have hs : n >>> 7 = n / 128 := by rw [Nat.shiftRight_eq_div_pow]
      have hdne : n / 128 ≠ 0 := Nat.ne_of_gt (Nat.div_pos h128 (by omega))
      have hlog7 : 7 ≤ n.log2 := by
        rw [Nat.le_log2 hne]; norm_num; omega
      have hlogdiv : (n / 128).log2 = n.log2 - 7 := by
        have hle : ∀ k : Nat, 2 ^ k ≤ n / 128 ↔ 2 ^ (k + 7) ≤ n := by
          intro k
          rw [Nat.le_div_iff_mul_le (by norm_num : (0:Nat) < 128), pow_add]
          norm_num
        apply Nat.le_antisymm
        · have h1 : 2 ^ (n / 128).log2 ≤ n / 128 := by
            rw [← Nat.le_log2 hdne]
          rw [hle] at h1
          have h2 : (n / 128).log2 + 7 ≤ n.log2 := by
            rw [Nat.le_log2 hne]; exact h1
          omega
        · have h1 : 2 ^ (n.log2 - 7) ≤ n / 128 := by
            rw [hle]
            have h2 : 2 ^ n.log2 ≤ n := by rw [← Nat.le_log2 hne]
            have h3 : n.log2 - 7 + 7 = n.log2 := by omega
            rw [h3]; exact h2
          rw [← Nat.le_log2 hdne] at h1
          exact h1
      rw [encode_varbyte_large h128]
      have hlt : n >>> 7 < n := by
        rw [hs]; exact Nat.div_lt_self (by omega) (by norm_num)
      rw [List.length_cons, ih (n >>> 7) hlt]
      rw [hs]
      simp only [bitsOf, hne, hdne, if_false, hlogdiv]
      have hb : n.log2 - 7 + 1 + 6 = n.log2 := by omega
      rw [hb]
      have h1 : 1 ≤ n.log2 / 7 := by
        have := Nat.div_le_div_right (c := 7) hlog7
        norm_num at this
        omega
      have h2 : (n.log2 + 1 + 6) / 7 = n.log2 / 7 + 1 := by
        have : n.log2 + 1 + 6 = n.log2 + 7 := by omega
        rw [this, Nat.add_div_right _ (by norm_num)]
      rw [h2]
      omega

/-- Every byte of a varbyte encoding except the last has the high bit set. -/
theorem encode_varbyte_dropLast_high (n : Nat) :
    ∀ b ∈ (encode_varbyte n).dropLast, b &&& 128 = 128 := by
  induction n using Nat.strong_induction_on with
  | _ n ih =>
    by_cases h : n < 128
    · rw [encode_varbyte_small h]
      simp
    · have h128 : 128 ≤ n := Nat.le_of_not_lt h
      rw [encode_varbyte_large h128]
      have hne := encode_varbyte_ne_nil (n >>> 7)
      intro b hb
      rw [List.dropLast_cons_of_ne_nil hne] at hb
      rcases List.mem_cons.mp hb with hb | hb
      · subst hb; exact contByte_land_128
      · have hlt : n >>> 7 < n := by
          rw [Nat.shiftRight_eq_div_pow]
          exact Nat.div_lt_self (by omega) (by norm_num)
        exact ih (n >>> 7) hlt b hb

/-- Decoding a byte stream all of whose bytes have the high bit set runs off
the end of the data. -/
theorem decodeVarbyteGo_allHigh :
    ∀ (l : List Nat) (consumed acc shift : Nat), (∀ b ∈ l, b &&& 128 = 128) →
      decodeVarbyteGo l consumed acc shift = none := by
  intro l
  induction l with
  | nil => intro _ _ _ _; rfl
  | cons b rest ihl =>
    intro consumed acc shift hall
    have hb : b &&& 128 = 128 := hall b (by simp)
    simp only [decodeVarbyteGo, hb]
    norm_num
    exact ihl _ _ _ (fun x hx => hall x (by simp [hx]))

/-- C2: for every non-negative integer `n`, decoding the encoding of `n` at
offset 0 yields `(n, L)` with `L = max(1, ceil(bits(n)/7))`; zero encodes as
the single byte `0x00`; and decoding any strict prefix of an encoding (a
buffer ending mid-number, with no final low-high-bit byte) fails with the
truncated-stream error (`none`). -/
theorem claim_c2_varbyte_contract (n : Nat) :
    decode_varbyte_stream (encode_varbyte n) 0 = some (n, max 1 ((bitsOf n + 6) / 7)) ∧
    encode_varbyte 0 = [0] ∧
    ∀ k, k < (encode_varbyte n).length →
      decode_varbyte_stream ((encode_varbyte n).take k) 0 = none := by
  refine ⟨?_, rfl, ?_⟩
  · have h := @decode_encode_at (encode_varbyte n) 0 n [] (by simp)
    rw [encode_varbyte_length] at h
    simpa using h
  · intro k hk
    have hsub : ∀ b ∈ (encode_varbyte n).take k, b &&& 128 = 128 := by
      intro b hb
      apply encode_varbyte_dropLast_high n
      rw [List.dropLast_eq_take]
      have htk : (encode_varbyte n).take k =
          ((encode_varbyte n).take ((encode_varbyte n).length - 1)).take k := by
        rw [List.take_take]
        congr 1
        omega
      rw [htk] at hb
      exact List.take_subset _ _ hb
    unfold decode_varbyte_stream
    rw [List.drop_zero, decodeVarbyteGo_allHigh _ 0 0 0 hsub]
    rfl

/-- Witness for C2 at `n = 300`, `k = 1`. -/
theorem claim_c2_varbyte_contract_witness :
    (1 < (encode_varbyte 300).length) ∧
      decode_varbyte_stream ((encode_varbyte 300).take 1) 0 = none :=
  ⟨by decide, (claim_c2_varbyte_contract 300).2.2 1 (by decide)⟩

/-! ## Stable sorting (Python `sorted`) -/

/-- One insertion step of a stable insertion sort; equal keys keep the
incoming element in front, matching Python `sorted` stability. -/
def insertLe {α : Type} (le : α → α → Bool) (x : α) : List α → List α
  | [] => [x]
  | y :: ys => if le x y then x :: y :: ys else y :: insertLe le x ys

/-- Stable sort used to model Python `sorted`. -/
def sortLe {α : Type} (le : α → α → Bool) : List α → List α
  | [] => []
  | x :: xs => insertLe le x (sortLe le xs)

theorem insertLe_perm {α : Type} (le : α → α → Bool) (x : α) (l : List α) :
    (insertLe le x l).Perm (x :: l) := by
  induction l with
  | nil => simp [insertLe]
  | cons y ys ih =>
    by_cases h : le x y
    · simp [insertLe, h]
    · simp only [insertLe, h, if_false]
      exact (ih.cons y).trans (List.Perm.swap x y ys)

theorem sortLe_perm {α : Type} (le : α → α → Bool) (l : List α) :
    (sortLe le l).Perm l := by
  induction l with
  | nil => simp [sortLe]
  | cons x xs ih =>
    exact (insertLe_perm le x _).trans (ih.cons x)

theorem insertLe_pairwise {α : Type} {le : α → α → Bool}
    (htrans : ∀ a b c, le a b = true → le b c = true → le a c = true)
    (htot : ∀ a b, le a b = true ∨ le b a = true)
    {x : α} {l : List α} (hl : l.Pairwise (fun a b => le a b = true)) :
    (insertLe le x l).Pairwise (fun a b => le a b = true) := by
  induction l with
  | nil => simp [insertLe]
  | cons y ys ih =>
    rcases List.pairwise_cons.mp hl with ⟨hy, hys⟩
    by_cases h : le x y
    · simp only [insertLe, h, if_true]
      refine List.pairwise_cons.mpr ⟨?_, hl⟩
      intro b hb
      rcases List.mem_cons.mp hb with hb | hb
      · subst hb; exact h
      · exact htrans x y b h (hy b hb)
    · have hyx : le y x = true := by
        rcases htot x y with h1 | h1
        · exact absurd h1 h
        · exact h1
      simp only [insertLe, h, if_false]
      refine List.pairwise_cons.mpr ⟨?_, ih hys⟩
      intro b hb
      have hb' : b ∈ x :: ys := (insertLe_perm le x ys).mem_iff.mp hb
      rcases List.mem_cons.mp hb' with hb' | hb'
      · subst hb'; exact hyx
      · exact hy b hb'

theorem sortLe_pairwise {α : Type} {le : α → α → Bool}
    (htrans : ∀ a b c, le a b = true → le b c = true → le a c = true)
    (htot : ∀ a b, le a b = true ∨ le b a = true) (l : List α) :
    (sortLe le l).Pairwise (fun a b => le a b = true) := by
  induction l with
  | nil => simp [sortLe]
  | cons x xs ih => exact insertLe_pairwise htrans htot ih

theorem sortLe_of_pairwise {α : Type} {le : α → α → Bool} :
    ∀ {l : List α}, l.Pairwise (fun a b => le a b = true) → sortLe le l = l := by
  intro l
  induction l with
  | nil => intro _; rfl
  | cons x xs ih =>
    intro hl
    rcases List.pairwise_cons.mp hl with ⟨hx, hxs⟩
    rw [sortLe, ih hxs]
    cases xs with
    | nil => rfl
    | cons y ys =>
      have : le x y = true := hx y (by simp)
      simp [insertLe, this]

/-! ## Association-list primitives (Python `dict`) -/

/-- Python `d[k]` lookup on an insertion-ordered dict. -/
def assocFind {α β : Type} [DecidableEq α] (k : α) : List (α × β) → Option β
  | [] => none
  | (k', v) :: rest => if k' = k then some v else assocFind k rest

/-- Python `d[k] = v` assignment: overwrite in place, else append. -/
def assocSet {α β : Type} [DecidableEq α] : List (α × β) → α → β → List (α × β)
  | [], k, v => [(k, v)]
  | (k', v') :: rest, k, v =>
    if k' = k then (k, v) :: rest else (k', v') :: assocSet rest k v

/-- `mapM` over `Option`, written as the straightforward recursion. -/
def optionMapM {α β : Type} (f : α → Option β) : List α → Option (List β)
  | [] => some []
  | x :: xs =>
    match f x, optionMapM f xs with
    | some y, some ys => some (y :: ys)
    | _, _ => none

theorem optionMapM_eq_map {α β : Type} {f : α → Option β} {g : α → β} :
    ∀ {l : List α}, (∀ x ∈ l, f x = some (g x)) →
      optionMapM f l = some (l.map g) := by
  intro l
  induction l with
  | nil => intro _; rfl
  | cons x xs ih =>
    intro h
    rw [optionMapM, h x (by simp), ih (fun y hy => h y (by simp [hy]))]
    rfl

/-! ## The postings writer (`indexer.py`, `write_term_entry`) -/

/-- `sorted(doc_map[doc_id])`: the positions written for one DocId. -/
def sortedPositions (doc_map : List (Nat × List Nat)) (k : Nat) : List Nat :=
  sortLe Nat.ble ((assocFind k doc_map).getD [])

/-- The loop body of `write_term_entry` for one `(doc_delta, doc_id)` pair:
varbyte doc-id delta, varbyte frequency, varbyte position deltas. -/
def writeEntryF (doc_map : List (Nat × List Nat)) (p : Int × Nat) :
    Option (List Nat) :=
  Option.bind (encode_varbyte_int p.1) (fun db =>
    (optionMapM encode_varbyte_int
        (encode_delta ((sortedPositions doc_map p.2).map
          (fun n : Nat => (n : Int))))).map (fun pds =>
      db ++ encode_varbyte (sortedPositions doc_map p.2).length ++ pds.flatten))

/-- The byte block `write_term_entry` (indexer.py lines 116-142) appends to
`index.postings` for one term: varbyte `doc_count`, then per ascending
DocId the varbyte doc-id delta, the varbyte frequency, and the varbyte
position deltas (positions sorted ascending).  Python would raise
`ValueError` if a delta were negative, hence the `Option`. -/
def write_term_entry_post (doc_map : List (Nat × List Nat)) : Option (List Nat) :=
  let doc_ids := sortLe Nat.ble (doc_map.map Prod.fst)
  let doc_deltas := encode_delta (doc_ids.map (fun n : Nat => (n : Int)))
  match optionMapM (writeEntryF doc_map) (List.zip doc_deltas doc_ids) with
  | some bodies => some (encode_varbyte doc_ids.length ++ bodies.flatten)
  | none => none

/-- The dictionary entry `write_term_entry` produces alongside the postings
block: term bytes truncated to 255, the postings offset, and `doc_count`. -/
def write_term_entry (term : List Nat) (doc_map : List (Nat × List Nat))
    (offset : Nat) : Option (List Nat × (List Nat × Nat × Nat)) :=
  (write_term_entry_post doc_map).map
    (fun body => (body, (term.take 255, offset,
      (sortLe Nat.ble (doc_map.map Prod.fst)).length)))

/-! ### Nat-level description of the written byte stream -/

/-- `encode_delta` specialized to ascending naturals (loop part). -/
def natDeltasGo : Nat → List Nat → List Nat
  | _, [] => []
  | prev, y :: ys => (y - prev) :: natDeltasGo y ys

/-- `encode_delta` specialized to ascending naturals. -/
def natDeltas : List Nat → List Nat
  | [] => []
  | x :: xs => x :: natDeltasGo x xs

/-- Running-sum reconstruction of a delta stream (what the reader's
`curr += delta` accumulation computes). -/
def accPos : Nat → List Nat → List Nat
  | _, [] => []
  | curr, d :: ds => (curr + d) :: accPos (curr + d) ds

/-- Byte block of one posting entry at the Nat level: doc-id delta,
frequency, position deltas. -/
def natEntryBytes (p : Nat × List Nat) : List Nat :=
  encode_varbyte p.1 ++ encode_varbyte p.2.length ++ (p.2.map encode_varbyte).flatten

/-- The sorted `(DocId, ascending positions)` sequence that
`write_term_entry` serializes for a doc map. -/
def sortedEntries (doc_map : List (Nat × List Nat)) : List (Nat × List Nat) :=
  (sortLe Nat.ble (doc_map.map Prod.fst)).map
    (fun k => (k, sortedPositions doc_map k))

/-- The delta-coded form of `sortedEntries`. -/
def entryDeltas (doc_map : List (Nat × List Nat)) : List (Nat × List Nat) :=
  List.zip (natDeltas (sortLe Nat.ble (doc_map.map Prod.fst)))
    ((sortLe Nat.ble (doc_map.map Prod.fst)).map
      (fun k => natDeltas (sortedPositions doc_map k)))

theorem natDeltasGo_length (prev : Nat) (l : List Nat) :
    (natDeltasGo prev l).length = l.length := by
  induction l generalizing prev with
  | nil => rfl
  | cons y ys ih => simp [natDeltasGo, ih]

theorem natDeltas_length (l : List Nat) : (natDeltas l).length = l.length := by
  cases l with
  | nil => rfl
  | cons x xs => simp [natDeltas, natDeltasGo_length]

theorem accPos_natDeltasGo {prev : Nat} :
    ∀ {l : List Nat}, List.Chain (· ≤ ·) prev l →
      accPos prev (natDeltasGo prev l) = l := by
  intro l
  induction l generalizing prev with
  | nil => intro _; rfl
  | cons y ys ih =>
    intro h
    rcases List.chain_cons.mp h with ⟨hpy, hys⟩
    rw [natDeltasGo, accPos, Nat.add_sub_cancel' hpy]
    rw [ih hys]

theorem accPos_natDeltas {l : List Nat} (h : List.Chain' (· ≤ ·) l) :
    accPos 0 (natDeltas l) = l := by
  cases l with
  | nil => rfl
  | cons x xs =>
    rw [natDeltas, accPos, Nat.zero_add]
    rw [accPos_natDeltasGo h]

theorem encodeDeltaGo_nat {prev : Nat} :
    ∀ {l : List Nat}, List.Chain (· ≤ ·) prev l →
      optionMapM encode_varbyte_int (encodeDeltaGo ((prev : Int)) (l.map (fun n : Nat => (n : Int)))) =
        some ((natDeltasGo prev l).map encode_varbyte) := by
  intro l
  induction l generalizing prev with
  | nil => intro _; rfl
  | cons y ys ih =>
    intro h
    rcases List.chain_cons.mp h with ⟨hpy, hys⟩
    rw [List.map_cons, encodeDeltaGo, optionMapM]
    have h1 : encode_varbyte_int ((y : Int) - (prev : Int)) =
        some (encode_varbyte (y - prev)) := by
      unfold encode_varbyte_int
      rw [if_neg (by omega), Int.toNat_sub]
    rw [h1, ih hys, natDeltasGo, List.map_cons]

theorem encodeDelta_nat {l : List Nat} (h : List.Chain' (· ≤ ·) l) :
    optionMapM encode_varbyte_int (encode_delta (l.map (fun n : Nat => (n : Int)))) =
      some ((natDeltas l).map encode_varbyte) := by
  cases l with
  | nil => rfl
  | cons x xs =>
    rw [List.map_cons, encode_delta, optionMapM, natDeltas, List.map_cons]
    have h1 : encode_varbyte_int ((x : Int)) = some (encode_varbyte x) := by
      unfold encode_varbyte_int
      rw [if_neg (by omega)]
      rfl
    rw [h1, encodeDeltaGo_nat h]

/-! ## The compressed postings reader (`search.py`, `get_postings`) -/

/-- The reader's buffer size: 1 MiB. -/
def bufferSize : Nat := 1024 * 1024

/-- Reader state while streaming one term's postings: the in-memory
`buffer`, the decode pointer `ptr`, and the bytes of the postings file not
yet read (`self.post_file.read` consumes from here). -/
structure RState where
  buffer : List Nat
  ptr : Nat
  rest : List Nat

/-- One refill step: `new_chunk = self.post_file.read(buffer_size)`; when
the chunk is non-empty, `buffer = buffer[ptr:] + new_chunk; ptr = 0`. -/
def refill (S : RState) : RState :=
  if S.rest.take bufferSize = [] then S
  else { buffer := S.buffer.drop S.ptr ++ S.rest.take bufferSize,
         ptr := 0,
         rest := S.rest.drop bufferSize }

/-- The inner `for _ in range(freq)` loop of `get_postings`: refill when
fewer than 5 bytes remain (`ptr >= len(buffer) - 5`), then decode one
position delta and accumulate `curr_pos`. -/
def posLoop : Nat → RState → List Nat → Nat → Option (List Nat × RState)
  | 0, S, positions, _ => some (positions, S)
  | freq + 1, S, positions, curr_pos =>
    let S' := if S.ptr ≥ S.buffer.length - 5 then refill S else S
    match decode_varbyte_stream S'.buffer S'.ptr with
    | none => none
    | some (pos_delta, ptr') =>
      posLoop freq { S' with ptr := ptr' }
        (positions ++ [curr_pos + pos_delta]) (curr_pos + pos_delta)

/-- The outer `for _ in range(doc_count)` loop of `get_postings`: refill
when fewer than 10 bytes remain, decode the doc-id delta and the frequency,
run the position loop, and store `result[curr_doc_id] = positions`. -/
def entryLoop : Nat → RState → List (Nat × List Nat) → Nat →
    Option (List (Nat × List Nat) × RState)
  | 0, S, result, _ => some (result, S)
  | doc_count + 1, S, result, curr_doc_id =>
    let S' := if S.ptr ≥ S.buffer.length - 10 then refill S else S
    match decode_varbyte_stream S'.buffer S'.ptr with
    | none => none
    | some (doc_delta, p1) =>
      match decode_varbyte_stream S'.buffer p1 with
      | none => none
      | some (freq, p2) =>
        match posLoop freq { S' with ptr := p2 } [] 0 with
        | none => none
        | some (positions, S'') =>
          entryLoop doc_count S''
            (assocSet result (curr_doc_id + doc_delta) positions)
            (curr_doc_id + doc_delta)

/-- `CompressedIndexReader.get_postings` (search.py lines 67-113) reading
from the postings file contents at a dictionary offset: seek, read an
initial 1 MiB chunk, decode `doc_count`, then the entry loop.  `none`
models the `IndexError` a truncated varbyte decode raises. -/
def get_postings (postFile : List Nat) (offset : Nat) :
    Option (List (Nat × List Nat)) :=
  let buffer := (postFile.drop offset).take bufferSize
  if buffer = [] then some []
  else
    match decode_varbyte_stream buffer 0 with
    | none => none
    | some (doc_count, ptr) =>
      (entryLoop doc_count
        { buffer := buffer, ptr := ptr, rest := (postFile.drop offset).drop bufferSize }
        [] 0).map Prod.fst

/-! ### Sliding-buffer invariant -/

/-- Concatenation of per-entry byte blocks. -/
def entryCat (es : List (Nat × List Nat)) : List Nat :=
  (es.map natEntryBytes).flatten

/-- Decoded entries of a delta stream: accumulate doc ids across entries,
positions from 0 within each entry. -/
def accEntries : Nat → List (Nat × List Nat) → List (Nat × List Nat)
  | _, [] => []
  | curr, (d, pds) :: es => (curr + d, accPos 0 pds) :: accEntries (curr + d) es

/-- The reader-state invariant: the bytes at and after the decode pointer,
followed by the unread file suffix, form the undecoded virtual stream. -/
def RInv (S : RState) (v : List Nat) : Prop :=
  S.buffer.drop S.ptr ++ S.rest = v ∧ S.ptr ≤ S.buffer.length

theorem refill_inv {S : RState} {v : List Nat} (h : RInv S v) :
    RInv (refill S) v ∧
      ((refill S).rest = [] ∨
        bufferSize ≤ (refill S).buffer.length - (refill S).ptr) := by
  rcases h with ⟨hv, hp⟩
  unfold refill
  by_cases hc : S.rest.take bufferSize = []
  · rw [if_pos hc]
    have hrest : S.rest = [] := by
      have hbuf : bufferSize ≠ 0 := by unfold bufferSize; omega
      rcases List.take_eq_nil_iff.mp hc with h | h
      · exact absurd h hbuf
      · exact h
    exact ⟨⟨hv, hp⟩, Or.inl hrest⟩
  · rw [if_neg hc]
    refine ⟨⟨?_, by simp⟩, ?_⟩
    · simp only [List.drop_zero]
      rw [List.append_assoc, List.take_append_drop]
      exact hv
    · by_cases hlen : S.rest.length ≤ bufferSize
      · left
        simp only
        exact List.drop_eq_nil_of_le hlen
      · right
        simp only [List.length_append, List.length_take, Nat.sub_zero]
        have : min bufferSize S.rest.length = bufferSize := by omega
        omega

/-- Decoding one varbyte whose encoding is next on the virtual stream,
provided it fits inside the buffer (or the buffer already holds the whole
remaining stream). -/
theorem decode_step {S : RState} {n : Nat} {v' : List Nat}
    (hinv : RInv S (encode_varbyte n ++ v'))
    (hfit : (encode_varbyte n).length ≤ S.buffer.length - S.ptr ∨ S.rest = []) :
    decode_varbyte_stream S.buffer S.ptr =
        some (n, S.ptr + (encode_varbyte n).length) ∧
      RInv { S with ptr := S.ptr + (encode_varbyte n).length } v' := by
  rcases hinv with ⟨hv, hp⟩
  rcases hfit with hfit | hrest
  · have hlenD : (S.buffer.drop S.ptr).length = S.buffer.length - S.ptr :=
      List.length_drop _ _
    have htake : (S.buffer.drop S.ptr).take (encode_varbyte n).length
        = encode_varbyte n := by
      have h1 : (S.buffer.drop S.ptr).take (encode_varbyte n).length =
          ((S.buffer.drop S.ptr) ++ S.rest).take (encode_varbyte n).length := by
        rw [List.take_append_of_le_length (by omega)]
      rw [h1, hv, List.take_left]
    have hD : S.buffer.drop S.ptr =
        encode_varbyte n ++ (S.buffer.drop S.ptr).drop (encode_varbyte n).length := by
      conv_lhs => rw [← List.take_append_drop (encode_varbyte n).length
        (S.buffer.drop S.ptr)]
      rw [htake]
    constructor
    · exact decode_encode_at hD
    · constructor
      · simp only
        rw [← List.drop_drop]
        have h2 : (S.buffer.drop S.ptr).drop (encode_varbyte n).length ++ S.rest =
            ((S.buffer.drop S.ptr) ++ S.rest).drop (encode_varbyte n).length := by
          rw [List.drop_append_of_le_length (by omega)]
        rw [h2, hv, List.drop_left]
      · simp only
        omega
  · have hD : S.buffer.drop S.ptr = encode_varbyte n ++ v' := by
      rw [hrest, List.append_nil] at hv
      exact hv
    constructor
    · exact decode_encode_at hD
    · have hlen : S.buffer.length - S.ptr =
          (encode_varbyte n).length + v'.length := by
        have := congrArg List.length hD
        simp only [List.length_drop, List.length_append] at this
        omega
      constructor
      · simp only
        rw [← List.drop_drop, hD, List.drop_left, hrest, List.append_nil]
      · simp only
        omega

/-- Encodings of values below `2 ^ (7 k)` take at most `k` bytes. -/
theorem encode_varbyte_length_le {n k : Nat} (hk : 1 ≤ k) (h : n < 2 ^ (7 * k)) :
    (encode_varbyte n).length ≤ k := by
  rw [encode_varbyte_length]
  by_cases h0 : n = 0
  · subst h0; simp [bitsOf]; omega
  · have hlog : n.log2 < 7 * k := by
      rw [Nat.log2_lt h0]; exact h
    have hb : bitsOf n ≤ 7 * k := by
      simp only [bitsOf, h0, if_false]; omega
    have : (bitsOf n + 6) / 7 ≤ k := by
      have : bitsOf n + 6 ≤ 7 * k + 6 := by omega
      calc (bitsOf n + 6) / 7 ≤ (7 * k + 6) / 7 := Nat.div_le_div_right this
        _ = k := by omega
    omega

theorem assocSet_append {α β : Type} [DecidableEq α] {k : α} {v : β} :
    ∀ {l : List (α × β)}, (∀ q ∈ l, q.1 ≠ k) → assocSet l k v = l ++ [(k, v)] := by
  intro l
  induction l with
  | nil => intro _; rfl
  | cons q rest ih =>
    intro h
    obtain ⟨k', v'⟩ := q
    have hne : k' ≠ k := h (k', v') (by simp)
    rw [assocSet, if_neg hne, ih (fun q hq => h q (by simp [hq]))]
    rfl

theorem posLoop_inv :
    ∀ (ds : List Nat) (S : RState) (v' positions : List Nat) (curr : Nat),
      RInv S ((ds.map encode_varbyte).flatten ++ v') →
      (∀ d ∈ ds, d < 2 ^ 35) →
      ∃ S', posLoop ds.length S positions curr =
          some (positions ++ accPos curr ds, S') ∧ RInv S' v' := by
  intro ds
  induction ds with
  | nil =>
    intro S v' positions curr hinv _
    refine ⟨S, ?_, by simpa using hinv⟩
    simp [posLoop, accPos]
  | cons d ds ih =>
    intro S v' positions curr hinv hb
    have hd : d < 2 ^ 35 := hb d (by simp)
    have hdlen : (encode_varbyte d).length ≤ 5 :=
      encode_varbyte_length_le (by omega) (by norm_num at hd ⊢; omega)
    have hv : (((d :: ds).map encode_varbyte).flatten ++ v') =
        encode_varbyte d ++ (((ds.map encode_varbyte).flatten) ++ v') := by
      simp
    rw [hv] at hinv
    obtain ⟨S1, hS1eq, hinv1, hfit⟩ :
        ∃ S1, (if S.ptr ≥ S.buffer.length - 5 then refill S else S) = S1 ∧
          RInv S1 (encode_varbyte d ++ (((ds.map encode_varbyte).flatten) ++ v')) ∧
          ((encode_varbyte d).length ≤ S1.buffer.length - S1.ptr ∨ S1.rest = []) := by
      by_cases hg : S.ptr ≥ S.buffer.length - 5
      · rw [if_pos hg]
        rcases refill_inv hinv with ⟨h1, h2⟩
        refine ⟨refill S, rfl, h1, ?_⟩
        rcases h2 with h2 | h2
        · right; exact h2
        · left; unfold bufferSize at h2; omega
      · rw [if_neg hg]
        exact ⟨S, rfl, hinv, Or.inl (by omega)⟩
    rcases decode_step hinv1 hfit with ⟨hdec, hinv2⟩
    have hstep : posLoop (ds.length + 1) S positions curr =
        posLoop ds.length { S1 with ptr := S1.ptr + (encode_varbyte d).length }
          (positions ++ [curr + d]) (curr + d) := by
      simp only [posLoop]
      rw [hS1eq, hdec]
    rcases ih { S1 with ptr := S1.ptr + (encode_varbyte d).length } v'
      (positions ++ [curr + d]) (curr + d) hinv2
      (fun x hx => hb x (by simp [hx])) with ⟨S', hrun, hinv'⟩
    refine ⟨S', ?_, hinv'⟩
    rw [show (d :: ds).length = ds.length + 1 from rfl, hstep, hrun]
    simp [accPos]

theorem entryLoop_inv :
    ∀ (es : List (Nat × List Nat)) (S : RState) (v' : List Nat)
      (result : List (Nat × List Nat)) (curr : Nat),
      RInv S (entryCat es ++ v') →
      (∀ p ∈ es, p.1 < 2 ^ 35 ∧ p.2.length < 2 ^ 42 ∧ ∀ d ∈ p.2, d < 2 ^ 35) →
      (∀ q ∈ result, q.1 ≤ curr) →
      (result = [] ∨ ∀ p ∈ es, 1 ≤ p.1) →
      (∀ p ∈ es.tail, 1 ≤ p.1) →
      ∃ S', entryLoop es.length S result curr =
          some (result ++ accEntries curr es, S') ∧ RInv S' v' := by
  intro es
  induction es with
  | nil =>
    intro S v' result curr hinv _ _ _ _
    refine ⟨S, ?_, by simpa [entryCat] using hinv⟩
    simp [entryLoop, accEntries]
  | cons e es ih =>
    intro S v' result curr hinv hb hres hfirst htail
    obtain ⟨d, pds⟩ := e
    have hbe := hb (d, pds) (by simp)
    have hd : d < 2 ^ 35 := hbe.1
    have hf : pds.length < 2 ^ 42 := hbe.2.1
    have hdlen : (encode_varbyte d).length ≤ 5 :=
      encode_varbyte_length_le (by omega) (by norm_num at hd ⊢; omega)
    have hflen : (encode_varbyte pds.length).length ≤ 6 :=
      encode_varbyte_length_le (by omega) (by norm_num at hf ⊢; omega)
    have hv : entryCat ((d, pds) :: es) ++ v' =
        encode_varbyte d ++ (encode_varbyte pds.length ++
          ((pds.map encode_varbyte).flatten ++ (entryCat es ++ v'))) := by
      simp [entryCat, natEntryBytes]
    rw [hv] at hinv
    obtain ⟨S1, hS1eq, hinv1, hbig⟩ :
        ∃ S1, (if S.ptr ≥ S.buffer.length - 10 then refill S else S) = S1 ∧
          RInv S1 (encode_varbyte d ++ (encode_varbyte pds.length ++
            ((pds.map encode_varbyte).flatten ++ (entryCat es ++ v')))) ∧
          (11 ≤ S1.buffer.length - S1.ptr ∨ S1.rest = []) := by
      by_cases hg : S.ptr ≥ S.buffer.length - 10
      · rw [if_pos hg]
        rcases refill_inv hinv with ⟨h1, h2⟩
        refine ⟨refill S, rfl, h1, ?_⟩
        rcases h2 with h2 | h2
        · right; exact h2
        · left; unfold bufferSize at h2; omega
      · rw [if_neg hg]
        exact ⟨S, rfl, hinv, Or.inl (by omega)⟩
    have hfit1 : (encode_varbyte d).length ≤ S1.buffer.length - S1.ptr ∨
        S1.rest = [] := by
      rcases hbig with h | h
      · left; omega
      · right; exact h
    rcases decode_step hinv1 hfit1 with ⟨hdec1, hinv2⟩
    have hfit2 : (encode_varbyte pds.length).length ≤
        S1.buffer.length - (S1.ptr + (encode_varbyte d).length) ∨ S1.rest = [] := by
      rcases hbig with h | h
      · left; omega
      · right; exact h
    rcases decode_step (S := { S1 with ptr := S1.ptr + (encode_varbyte d).length })
      hinv2 hfit2 with ⟨hdec2, hinv3⟩
    dsimp only at hdec2 hinv3
    rcases posLoop_inv pds
      { S1 with ptr := S1.ptr + (encode_varbyte d).length +
          (encode_varbyte pds.length).length }
      (entryCat es ++ v') [] 0 hinv3 hbe.2.2 with ⟨S2, hpos, hinv4⟩
    rw [List.nil_append] at hpos
    have hstep : entryLoop (es.length + 1) S result curr =
        entryLoop es.length S2
          (assocSet result (curr + d) (accPos 0 pds)) (curr + d) := by
      simp only [entryLoop]
      rw [hS1eq, hdec1]
      dsimp only
      rw [hdec2]
      dsimp only
      rw [hpos]
    have hset : assocSet result (curr + d) (accPos 0 pds) =
        result ++ [(curr + d, accPos 0 pds)] := by
      rcases hfirst with hfirst | hfirst
      · subst hfirst; rfl
      · apply assocSet_append
        intro q hq
        have h1 : q.1 ≤ curr := hres q hq
        have h2 : 1 ≤ d := hfirst (d, pds) (by simp)
        omega
    rcases ih S2 v' (result ++ [(curr + d, accPos 0 pds)]) (curr + d) hinv4
      (fun p hp => hb p (by simp [hp]))
      (by
        intro q hq
        rcases List.mem_append.mp hq with hq | hq
        · have := hres q hq; omega
        · simp at hq; rw [hq]; )
      (Or.inr (fun p hp => htail p (by simpa using hp)))
      (fun p hp => htail p (by simp [List.mem_of_mem_tail hp]))
      with ⟨S', hrun, hinv'⟩
    refine ⟨S', ?_, hinv'⟩
    rw [show ((d, pds) :: es).length = es.length + 1 from rfl, hstep, hset, hrun]
    simp [accEntries]

/-! ### The written stream at the Nat level -/

theorem natBle_trans : ∀ a b c : Nat, Nat.ble a b = true → Nat.ble b c = true →
    Nat.ble a c = true := by
  intro a b c h1 h2
  rw [Nat.ble_eq] at *
  omega

theorem natBle_total : ∀ a b : Nat, Nat.ble a b = true ∨ Nat.ble b a = true := by
  intro a b
  rcases Nat.le_total a b with h | h
  · left; rwa [Nat.ble_eq]
  · right; rwa [Nat.ble_eq]

theorem sortNat_pairwise (l : List Nat) :
    (sortLe Nat.ble l).Pairwise (· ≤ ·) := by
  have h := sortLe_pairwise natBle_trans natBle_total l
  exact h.imp (fun hab => by rwa [Nat.ble_eq] at hab)

theorem sortNat_chain (l : List Nat) : List.Chain' (· ≤ ·) (sortLe Nat.ble l) :=
  (sortNat_pairwise l).chain'

theorem writeEntryF_eval (doc_map : List (Nat × List Nat)) (d k : Nat) :
    writeEntryF doc_map ((d : Int), k) =
      some (natEntryBytes (d, natDeltas (sortedPositions doc_map k))) := by
  unfold writeEntryF
  dsimp only
  have h1 : encode_varbyte_int (d : Int) = some (encode_varbyte d) := by
    unfold encode_varbyte_int
    rw [if_neg (by omega)]
    simp
  have hch : List.Chain' (· ≤ ·) (sortedPositions doc_map k) := sortNat_chain _
  rw [h1, encodeDelta_nat hch,
    show (sortedPositions doc_map k).length =
      (natDeltas (sortedPositions doc_map k)).length from (natDeltas_length _).symm]
  rfl

theorem writeZipGo (doc_map : List (Nat × List Nat)) :
    ∀ (ks : List Nat) (prev : Nat), List.Chain (· ≤ ·) prev ks →
      optionMapM (writeEntryF doc_map)
        (List.zip (encodeDeltaGo (prev : Int) (ks.map (fun n : Nat => (n : Int)))) ks) =
      some ((List.zip (natDeltasGo prev ks)
          (ks.map (fun k => natDeltas (sortedPositions doc_map k)))).map natEntryBytes) := by
  intro ks
  induction ks with
  | nil => intro _ _; rfl
  | cons y ys ih =>
    intro prev h
    rcases List.chain_cons.mp h with ⟨hpy, hys⟩
    have hcast : (y : Int) - (prev : Int) = ((y - prev : Nat) : Int) := by
      omega
    rw [List.map_cons, encodeDeltaGo, List.zip_cons_cons, optionMapM, hcast,
      writeEntryF_eval, ih y hys]
    rfl

theorem writeZip (doc_map : List (Nat × List Nat)) {l : List Nat}
    (h : List.Chain' (· ≤ ·) l) :
    optionMapM (writeEntryF doc_map)
      (List.zip (encode_delta (l.map (fun n : Nat => (n : Int)))) l) =
    some ((List.zip (natDeltas l)
        (l.map (fun k => natDeltas (sortedPositions doc_map k)))).map natEntryBytes) := by
  cases l with
  | nil => rfl
  | cons x xs =>
    have hch : List.Chain (· ≤ ·) x xs := h
    rw [List.map_cons, encode_delta, List.zip_cons_cons, optionMapM,
      writeEntryF_eval, writeZipGo doc_map xs x hch]
    rfl

/-- The bytes `write_term_entry` writes, described without `Int`. -/
def natPostBytes (doc_map : List (Nat × List Nat)) : List Nat :=
  encode_varbyte (sortLe Nat.ble (doc_map.map Prod.fst)).length ++
    entryCat (entryDeltas doc_map)

theorem write_term_entry_post_eq (doc_map : List (Nat × List Nat)) :
    write_term_entry_post doc_map = some (natPostBytes doc_map) := by
  unfold write_term_entry_post natPostBytes entryCat entryDeltas
  dsimp only
  rw [writeZip doc_map (sortNat_chain _)]

theorem natDeltasGo_bound {N : Nat} :
    ∀ {ks : List Nat} {prev : Nat}, (∀ k ∈ ks, k < N) →
      ∀ d ∈ natDeltasGo prev ks, d < N := by
  intro ks
  induction ks with
  | nil => intro _ _ d hd; simp [natDeltasGo] at hd
  | cons y ys ih =>
    intro prev hk d hd
    rw [natDeltasGo] at hd
    rcases List.mem_cons.mp hd with hd | hd
    · have := hk y (by simp); omega
    · exact ih (fun k hk' => hk k (by simp [hk'])) d hd

theorem natDeltas_bound {N : Nat} {l : List Nat} (h : ∀ k ∈ l, k < N) :
    ∀ d ∈ natDeltas l, d < N := by
  cases l with
  | nil => intro d hd; simp [natDeltas] at hd
  | cons x xs =>
    intro d hd
    rw [natDeltas] at hd
    rcases List.mem_cons.mp hd with hd | hd
    · subst hd; exact h _ (by simp)
    · exact natDeltasGo_bound (fun k hk => h k (by simp [hk])) d hd

theorem natDeltasGo_pos :
    ∀ {ks : List Nat} {prev : Nat}, List.Chain (· < ·) prev ks →
      ∀ d ∈ natDeltasGo prev ks, 1 ≤ d := by
  intro ks
  induction ks with
  | nil => intro _ _ d hd; simp [natDeltasGo] at hd
  | cons y ys ih =>
    intro prev hch d hd
    rcases List.chain_cons.mp hch with ⟨hpy, hys⟩
    rw [natDeltasGo] at hd
    rcases List.mem_cons.mp hd with hd | hd
    · omega
    · exact ih hys d hd

theorem pairwise_lt_of_le_nodup :
    ∀ {l : List Nat}, l.Pairwise (· ≤ ·) → l.Nodup → l.Pairwise (· < ·) := by
  intro l
  induction l with
  | nil => intro _ _; exact List.Pairwise.nil
  | cons x xs ih =>
    intro h1 h2
    rcases List.pairwise_cons.mp h1 with ⟨hx, hxs⟩
    rcases List.nodup_cons.mp h2 with ⟨hnx, hnxs⟩
    refine List.pairwise_cons.mpr ⟨?_, ih hxs hnxs⟩
    intro y hy
    have h3 := hx y hy
    rcases Nat.lt_or_ge x y with h | h
    · exact h
    · exfalso
      have : x = y := by omega
      subst this
      exact hnx hy

theorem sortNat_nodup {l : List Nat} (h : l.Nodup) :
    (sortLe Nat.ble l).Nodup := ((sortLe_perm Nat.ble l).nodup_iff).mpr h

theorem nodup_length_le {l : List Nat} {N : Nat} (hnd : l.Nodup)
    (hb : ∀ x ∈ l, x < N) : l.length ≤ N := by
  have h1 : l.toFinset.card = l.length := List.toFinset_card_of_nodup hnd
  have h2 : l.toFinset ⊆ Finset.range N := fun x hx =>
    Finset.mem_range.mpr (hb x (List.mem_toFinset.mp hx))
  have h3 := Finset.card_le_card h2
  rw [Finset.card_range] at h3
  omega

theorem assocFind_mem_keys {α β : Type} [DecidableEq α] :
    ∀ {l : List (α × β)} {k : α}, k ∈ l.map Prod.fst →
      ∃ v, assocFind k l = some v ∧ (k, v) ∈ l := by
  intro l
  induction l with
  | nil => intro k hk; simp at hk
  | cons q rest ih =>
    intro k hk
    obtain ⟨k', v'⟩ := q
    by_cases he : k' = k
    · subst he
      exact ⟨v', by rw [assocFind, if_pos rfl], by simp⟩
    · have hk' : k ∈ rest.map Prod.fst := by
        rcases List.mem_map.mp hk with ⟨p, hp, hfst⟩
        rcases List.mem_cons.mp hp with hp | hp
        · exfalso; subst hp; exact he hfst
        · exact List.mem_map.mpr ⟨p, hp, hfst⟩
      rcases ih hk' with ⟨v, hfind, hmem⟩
      exact ⟨v, by rw [assocFind, if_neg he]; exact hfind, by simp [hmem]⟩

theorem accEntriesGo (f : Nat → List Nat) :
    ∀ (ks : List Nat) (prev : Nat), List.Chain (· ≤ ·) prev ks →
      accEntries prev (List.zip (natDeltasGo prev ks) (ks.map f)) =
        ks.map (fun k => (k, accPos 0 (f k))) := by
  intro ks
  induction ks with
  | nil => intro _ _; rfl
  | cons y ys ih =>
    intro prev h
    rcases List.chain_cons.mp h with ⟨hpy, hys⟩
    rw [natDeltasGo, List.map_cons, List.zip_cons_cons, accEntries,
      Nat.add_sub_cancel' hpy, ih y hys, List.map_cons]

theorem accPos_sortedPositions (doc_map : List (Nat × List Nat)) (k : Nat) :
    accPos 0 (natDeltas (sortedPositions doc_map k)) = sortedPositions doc_map k :=
  accPos_natDeltas (sortNat_chain _)

theorem accEntries_entryDeltas (doc_map : List (Nat × List Nat)) :
    accEntries 0 (entryDeltas doc_map) = sortedEntries doc_map := by
  unfold entryDeltas sortedEntries
  cases hsk : sortLe Nat.ble (doc_map.map Prod.fst) with
  | nil => rfl
  | cons x xs =>
    have hch : List.Chain (· ≤ ·) x xs := by
      have h := sortNat_chain (doc_map.map Prod.fst)
      rw [hsk] at h
      exact h
    rw [natDeltas, List.map_cons, List.zip_cons_cons, accEntries, Nat.zero_add,
      accPos_sortedPositions, accEntriesGo _ xs x hch, List.map_cons]
    congr 1
    apply List.map_congr_left
    intro k _
    rw [accPos_sortedPositions]

/-- C1 (amended): writing a term's postings with `write_term_entry` and
reading them back with `get_postings` from the term's offset — with
arbitrary bytes before and after, so the 1 MiB sliding-buffer chunk
boundaries may fall anywhere — returns exactly the written
`(DocId -> ascending positions)` entries, sorted by DocId, provided every
DocId and position is below `2^35` and there are no duplicate DocIds or
positions (so every varbyte fits the 10- and 5-byte safety margins). -/
theorem claim_c1_roundtrip_amended
    (pre : List Nat) (doc_map : List (Nat × List Nat)) (trailing B : List Nat)
    (hnd : (doc_map.map Prod.fst).Nodup)
    (hkb : ∀ k ∈ doc_map.map Prod.fst, k < 2 ^ 35)
    (hpb : ∀ p ∈ doc_map, p.2.Nodup ∧ ∀ x ∈ p.2, x < 2 ^ 35)
    (hw : write_term_entry_post doc_map = some B) :
    get_postings (pre ++ B ++ trailing) pre.length = some (sortedEntries doc_map) := by
  rw [write_term_entry_post_eq] at hw
  have hB := Option.some.inj hw
  subst hB
  have hsknd : (sortLe Nat.ble (doc_map.map Prod.fst)).Nodup := sortNat_nodup hnd
  have hskb : ∀ k ∈ sortLe Nat.ble (doc_map.map Prod.fst), k < 2 ^ 35 :=
    fun k hk => hkb k ((sortLe_perm Nat.ble _).mem_iff.mp hk)
  have hdc : (sortLe Nat.ble (doc_map.map Prod.fst)).length ≤ 2 ^ 35 :=
    nodup_length_le hsknd hskb
  have hdclen :
      (encode_varbyte (sortLe Nat.ble (doc_map.map Prod.fst)).length).length ≤ 6 := by
    apply encode_varbyte_length_le (by omega)
    norm_num at hdc ⊢
    omega
  have hD : natPostBytes doc_map ++ trailing =
      encode_varbyte (sortLe Nat.ble (doc_map.map Prod.fst)).length ++
        (entryCat (entryDeltas doc_map) ++ trailing) := by
    unfold natPostBytes
    rw [List.append_assoc]
  unfold get_postings
  rw [List.append_assoc, List.drop_left]
  have hne : (natPostBytes doc_map ++ trailing).take bufferSize ≠ [] := by
    intro hcon
    rcases List.take_eq_nil_iff.mp hcon with h | h
    · unfold bufferSize at h; omega
    · rcases List.append_eq_nil.mp h with ⟨h1, _⟩
      unfold natPostBytes at h1
      rcases List.append_eq_nil.mp h1 with ⟨h2, _⟩
      exact encode_varbyte_ne_nil _ h2
  rw [if_neg hne]
  have hinv0 : RInv
      { buffer := (natPostBytes doc_map ++ trailing).take bufferSize, ptr := 0,
        rest := (natPostBytes doc_map ++ trailing).drop bufferSize }
      (encode_varbyte (sortLe Nat.ble (doc_map.map Prod.fst)).length ++
        (entryCat (entryDeltas doc_map) ++ trailing)) := by
    constructor
    · dsimp only
      rw [List.drop_zero, List.take_append_drop, hD]
    · dsimp only
      omega
  have hfit0 :
      (encode_varbyte (sortLe Nat.ble (doc_map.map Prod.fst)).length).length ≤
        ((natPostBytes doc_map ++ trailing).take bufferSize).length - 0 ∨
      (natPostBytes doc_map ++ trailing).drop bufferSize = [] := by
    by_cases hlen : (natPostBytes doc_map ++ trailing).length ≤ bufferSize
    · right
      exact List.drop_eq_nil_of_le hlen
    · left
      rw [List.length_take]
      unfold bufferSize at *
      omega
  rcases decode_step hinv0 hfit0 with ⟨hdec0, hinv1⟩
  dsimp only at hdec0 hinv1
  rw [hdec0]
  dsimp only
  have hlen2 : (entryDeltas doc_map).length =
      (sortLe Nat.ble (doc_map.map Prod.fst)).length := by
    unfold entryDeltas
    rw [List.length_zip, natDeltas_length, List.length_map]
    omega
  have hb : ∀ p ∈ entryDeltas doc_map,
      p.1 < 2 ^ 35 ∧ p.2.length < 2 ^ 42 ∧ ∀ d ∈ p.2, d < 2 ^ 35 := by
    intro p hp
    obtain ⟨h1, h2⟩ := List.of_mem_zip hp
    refine ⟨natDeltas_bound hskb p.1 h1, ?_⟩
    rcases List.mem_map.mp h2 with ⟨k, hk, hpk⟩
    rcases assocFind_mem_keys ((sortLe_perm Nat.ble _).mem_iff.mp hk) with
      ⟨v, hfind, hmem⟩
    have hsp : sortedPositions doc_map k = sortLe Nat.ble v := by
      unfold sortedPositions
      rw [hfind]
      rfl
    rcases hpb (k, v) hmem with ⟨hvnd, hvb⟩
    have hvb' : ∀ x ∈ sortLe Nat.ble v, x < 2 ^ 35 :=
      fun x hx => hvb x ((sortLe_perm Nat.ble v).mem_iff.mp hx)
    constructor
    · rw [← hpk, hsp, natDeltas_length]
      have hle : (sortLe Nat.ble v).length ≤ 2 ^ 35 :=
        nodup_length_le (((sortLe_perm Nat.ble v).nodup_iff).mpr hvnd) hvb'
      norm_num at hle ⊢
      omega
    · rw [← hpk, hsp]
      exact natDeltas_bound hvb'
  have htail : ∀ p ∈ (entryDeltas doc_map).tail, 1 ≤ p.1 := by
    unfold entryDeltas
    cases hsk : sortLe Nat.ble (doc_map.map Prod.fst) with
    | nil => intro p hp; simp at hp
    | cons x xs =>
      intro p hp
      rw [natDeltas, List.map_cons, List.zip_cons_cons, List.tail_cons] at hp
      obtain ⟨h1, _⟩ := List.of_mem_zip hp
      have hlt : List.Chain (· < ·) x xs := by
        have hpl := pairwise_lt_of_le_nodup (sortNat_pairwise (doc_map.map Prod.fst))
          hsknd
        rw [hsk] at hpl
        exact hpl.chain'
      exact natDeltasGo_pos hlt p.1 h1
  rcases entryLoop_inv (entryDeltas doc_map)
    { buffer := (natPostBytes doc_map ++ trailing).take bufferSize,
      ptr := 0 + (encode_varbyte (sortLe Nat.ble (doc_map.map Prod.fst)).length).length,
      rest := (natPostBytes doc_map ++ trailing).drop bufferSize }
    trailing [] 0 hinv1 hb (by intro q hq; simp at hq) (Or.inl rfl) htail with
    ⟨S', hrun, _⟩
  rw [hlen2] at hrun
  rw [hrun]
  simp [accEntries_entryDeltas]

/-- Witness for the amended C1 round trip on a small concrete index. -/
theorem claim_c1_roundtrip_amended_witness :
    (([(2, [5, 7]), (0, [1])] : List (Nat × List Nat)).map Prod.fst).Nodup ∧
    get_postings ([9, 9] ++ natPostBytes [(2, [5, 7]), (0, [1])] ++ [3]) 2 =
      some (sortedEntries [(2, [5, 7]), (0, [1])]) :=
  ⟨by decide,
    claim_c1_roundtrip_amended [9, 9] [(2, [5, 7]), (0, [1])] [3] _
      (by decide) (by decide) (by decide) (write_term_entry_post_eq _)⟩

/-! ### C1 counterexample: a position gap of `2 ^ 42` straddles the buffer -/

/-- Number of single-byte position deltas placed before the straddling one:
chosen so the 7-byte varbyte starts 6 bytes before the 1 MiB boundary. -/
def cexJ : Nat := 1048565

/-- The frequency written for the single document: `cexJ + 1` positions. -/
def cexF : Nat := 1048566

/-- The position deltas: `cexJ` gaps of 1, then one gap of `2 ^ 42`. -/
def cexDeltas : List Nat := List.replicate cexJ 1 ++ [2 ^ 42]

/-- The doc map of the counterexample: one document whose term positions
are `1, 2, ..., cexJ, cexJ + 2 ^ 42`. -/
def cexMap : List (Nat × List Nat) := [(0, accPos 0 cexDeltas)]

/-- The postings bytes `write_term_entry` emits for `cexMap`. -/
def cexBytes : List Nat :=
  [1, 0] ++ encode_varbyte cexF ++ List.replicate cexJ 1 ++ encode_varbyte (2 ^ 42)

theorem accPos_chain : ∀ (ds : List Nat) (curr : Nat),
    List.Chain' (· ≤ ·) (accPos curr ds) := by
  intro ds
  induction ds with
  | nil => intro _; simp [accPos]
  | cons d rest ih =>
    intro curr
    rw [accPos]
    cases hrest : rest with
    | nil => simp [accPos]
    | cons d' rest' =>
      rw [accPos]
      refine List.Chain'.cons (by omega) ?_
      have h := ih (curr + d)
      rw [hrest, accPos] at h
      exact h

theorem natDeltasGo_accPos : ∀ (ds : List Nat) (curr : Nat),
    natDeltasGo curr (accPos curr ds) = ds := by
  intro ds
  induction ds with
  | nil => intro _; rfl
  | cons d rest ih =>
    intro curr
    rw [accPos, natDeltasGo, Nat.add_sub_cancel_left, ih]

theorem natDeltas_accPos (ds : List Nat) : natDeltas (accPos 0 ds) = ds := by
  cases ds with
  | nil => rfl
  | cons d rest =>
    rw [accPos, natDeltas, natDeltasGo_accPos, Nat.zero_add]

theorem sortLe_accPos (ds : List Nat) (curr : Nat) :
    sortLe Nat.ble (accPos curr ds) = accPos curr ds := by
  apply sortLe_of_pairwise
  have hch := accPos_chain ds curr
  have hpw : (accPos curr ds).Pairwise (· ≤ ·) := List.chain'_iff_pairwise.mp hch
  exact hpw.imp (fun h => by rwa [Nat.ble_eq])

theorem flatten_replicate_singleton (x : Nat) :
    ∀ j : Nat, (List.replicate j [x]).flatten = List.replicate j x := by
  intro j
  induction j with
  | zero => rfl
  | succ j ih => simp [List.replicate_succ, ih]

theorem cex_flatten :
    (cexDeltas.map encode_varbyte).flatten =
      List.replicate cexJ 1 ++ encode_varbyte (2 ^ 42) := by
  unfold cexDeltas
  rw [List.map_append, List.map_replicate, List.flatten_append,
    show encode_varbyte (1 : Nat) = [1] from rfl, flatten_replicate_singleton,
    List.map_singleton,
    show List.flatten [encode_varbyte (2 ^ 42)] = encode_varbyte (2 ^ 42) ++ []
      from rfl, List.append_nil]

theorem cex_length : cexDeltas.length = cexF := by
  unfold cexDeltas
  rw [List.length_append, List.length_replicate]
  decide

theorem cex_entryDeltas : entryDeltas cexMap = [(0, cexDeltas)] := by
  unfold entryDeltas cexMap
  have hsp : sortedPositions [(0, accPos 0 cexDeltas)] 0 = accPos 0 cexDeltas := by
    unfold sortedPositions
    rw [show assocFind 0 [(0, accPos 0 cexDeltas)] = some (accPos 0 cexDeltas)
      from rfl]
    exact sortLe_accPos _ _
  rw [show List.map Prod.fst [(0, accPos 0 cexDeltas)] = [0] from rfl,
    show sortLe Nat.ble [0] = [0] from rfl, List.map_singleton, hsp,
    natDeltas_accPos]
  rfl

theorem cex_natPostBytes : natPostBytes cexMap = cexBytes := by
  unfold natPostBytes
  rw [cex_entryDeltas,
    show List.map Prod.fst cexMap = [0] from rfl,
    show sortLe Nat.ble [0] = [0] from rfl,
    show (encode_varbyte ([0] : List Nat).length) = [1] from rfl]
  unfold entryCat
  rw [List.map_singleton,
    show List.flatten [natEntryBytes (0, cexDeltas)] =
      natEntryBytes (0, cexDeltas) ++ [] from rfl, List.append_nil]
  unfold natEntryBytes
  rw [show encode_varbyte ((0, cexDeltas).1) = [0] from rfl]
  have h2 : (0, cexDeltas).2 = cexDeltas := rfl
  rw [h2, cex_length, cex_flatten]
  unfold cexBytes
  rw [List.append_assoc, List.append_assoc]
  rfl

theorem cex_write : write_term_entry_post cexMap = some cexBytes := by
  rw [write_term_entry_post_eq, cex_natPostBytes]

theorem decode_allHigh128 {B : List Nat} {ptr : Nat}
    (h : B.drop ptr = List.replicate 6 128) :
    decode_varbyte_stream B ptr = none := by
  unfold decode_varbyte_stream
  rw [h, decodeVarbyteGo_allHigh]
  · rfl
  · intro b hb
    have hb' : b = 128 := List.eq_of_mem_replicate hb
    rw [hb']
    decide

theorem posLoop_ones {B R : List Nat} :
    ∀ (k f ptr : Nat) (acc : List Nat) (curr : Nat),
      B.drop ptr = List.replicate k 1 ++ List.replicate 6 128 →
      B.length - ptr = k + 6 →
      posLoop (k + f) ⟨B, ptr, R⟩ acc curr =
        posLoop f ⟨B, ptr + k, R⟩ (acc ++ accPos curr (List.replicate k 1))
          (curr + k) := by
  intro k
  induction k with
  | zero =>
    intro f ptr acc curr _ _
    simp [accPos]
  | succ k ih =>
    intro f ptr acc curr hdrop hlen
    have hg : ¬ (ptr ≥ B.length - 5) := by omega
    have hdec : decode_varbyte_stream B ptr = some (1, ptr + 1) := by
      have h1 : B.drop ptr =
          encode_varbyte 1 ++ (List.replicate k 1 ++ List.replicate 6 128) := by
        rw [hdrop, List.replicate_succ]
        rfl
      have h2 := decode_encode_at h1
      simpa using h2
    have hstep : posLoop (k + f + 1) ⟨B, ptr, R⟩ acc curr =
        posLoop (k + f) ⟨B, ptr + 1, R⟩ (acc ++ [curr + 1]) (curr + 1) := by
      simp only [posLoop]
      rw [if_neg hg]
      rw [hdec]
    have hdrop' : B.drop (ptr + 1) = List.replicate k 1 ++ List.replicate 6 128 := by
      have h3 : B.drop (ptr + 1) = (B.drop ptr).drop 1 := by
        rw [List.drop_drop]
      rw [h3, hdrop, List.replicate_succ]
      rfl
    have hlen' : B.length - (ptr + 1) = k + 6 := by omega
    have hrec := ih f (ptr + 1) (acc ++ [curr + 1]) (curr + 1) hdrop' hlen'
    rw [show k + 1 + f = k + f + 1 from by omega, hstep, hrec,
      show ptr + 1 + k = ptr + (k + 1) from by omega,
      show curr + 1 + k = curr + (k + 1) from by omega]
    rw [List.replicate_succ, accPos, List.append_assoc]
    rfl

theorem cex_buffer : cexBytes.take bufferSize =
    [1, 0, 246, 255, 63] ++ (List.replicate cexJ 1 ++ List.replicate 6 128) := by
  have hencF : encode_varbyte cexF = [246, 255, 63] := by decide
  have hsplit : cexBytes =
      ([1, 0, 246, 255, 63] ++ List.replicate cexJ 1) ++
        encode_varbyte (2 ^ 42) := by
    unfold cexBytes
    rw [hencF]
    rw [List.append_assoc]
    rfl
  have hlenP : ([1, 0, 246, 255, 63] ++ List.replicate cexJ 1).length =
      1048570 := by
    rw [List.length_append, List.length_replicate]
    decide
  have hbufeq : bufferSize =
      ([1, 0, 246, 255, 63] ++ List.replicate cexJ 1).length + 6 := by
    rw [hlenP]
    decide
  rw [hsplit, hbufeq, List.take_append,
    show encode_varbyte (2 ^ 42) = [128, 128, 128, 128, 128, 128, 1] from by decide,
    show List.take 6 [128, 128, 128, 128, 128, 128, 1] = List.replicate 6 128
      from by decide]
  rw [List.append_assoc]

theorem cex_buffer_length : (cexBytes.take bufferSize).length = cexJ + 11 := by
  rw [cex_buffer, List.length_append, List.length_append, List.length_replicate,
    List.length_replicate]
  decide

theorem posLoop_fail (b : List Nat) (p : Nat) (r : List Nat)
    (hg : ¬ (p ≥ b.length - 5)) (hd : decode_varbyte_stream b p = none)
    (f : Nat) (acc : List Nat) (curr : Nat) :
    posLoop (f + 1) ⟨b, p, r⟩ acc curr = none := by
  simp only [posLoop]
  rw [if_neg hg, hd]

theorem entryLoop_posFail (b : List Nat) (p : Nat) (r : List Nat)
    {d p1 fr p2 : Nat} (hg : ¬ (p ≥ b.length - 10))
    (h1 : decode_varbyte_stream b p = some (d, p1))
    (h2 : decode_varbyte_stream b p1 = some (fr, p2))
    (h3 : posLoop fr ⟨b, p2, r⟩ [] 0 = none)
    (dc : Nat) (result : List (Nat × List Nat)) (curr : Nat) :
    entryLoop (dc + 1) ⟨b, p, r⟩ result curr = none := by
  simp only [entryLoop]
  rw [if_neg hg, h1]
  dsimp only
  rw [h2]
  dsimp only
  rw [h3]

theorem cex_read : get_postings cexBytes 0 = none := by
  have hdc : decode_varbyte_stream (cexBytes.take bufferSize) 0 = some (1, 1) := by
    have h1 : (cexBytes.take bufferSize).drop 0 = encode_varbyte 1 ++
        ([0, 246, 255, 63] ++ (List.replicate cexJ 1 ++ List.replicate 6 128)) := by
      rw [List.drop_zero, cex_buffer]
      rfl
    have h2 := decode_encode_at h1
    simpa using h2
  have hdd : decode_varbyte_stream (cexBytes.take bufferSize) 1 = some (0, 2) := by
    have h1 : (cexBytes.take bufferSize).drop 1 = encode_varbyte 0 ++
        ([246, 255, 63] ++ (List.replicate cexJ 1 ++ List.replicate 6 128)) := by
      rw [cex_buffer]
      rfl
    have h2 := decode_encode_at h1
    simpa using h2
  have hdf : decode_varbyte_stream (cexBytes.take bufferSize) 2 =
      some (cexF, 5) := by
    have h1 : (cexBytes.take bufferSize).drop 2 = encode_varbyte cexF ++
        (List.replicate cexJ 1 ++ List.replicate 6 128) := by
      rw [cex_buffer, show encode_varbyte cexF = [246, 255, 63] from by decide]
      rfl
    have h2 := decode_encode_at h1
    rw [show (encode_varbyte cexF).length = 3 from by decide] at h2
    simpa using h2
  have hdrop5 : (cexBytes.take bufferSize).drop 5 =
      List.replicate cexJ 1 ++ List.replicate 6 128 := by
    rw [cex_buffer]
    rfl
  have hlen5 : (cexBytes.take bufferSize).length - 5 = cexJ + 6 := by
    rw [cex_buffer_length]
    decide
  have hdec2 : decode_varbyte_stream (cexBytes.take bufferSize) (5 + cexJ) =
      none := by
    apply decode_allHigh128
    have h5 : (cexBytes.take bufferSize).drop (5 + cexJ) =
        ((cexBytes.take bufferSize).drop 5).drop cexJ :=
      (List.drop_drop cexJ 5 _).symm
    rw [h5, hdrop5]
    have h6 := List.drop_left (List.replicate cexJ (1 : Nat))
      (List.replicate 6 (128 : Nat))
    rw [List.length_replicate] at h6
    exact h6
  have hg2 : ¬ ((5 + cexJ : Nat) ≥ (cexBytes.take bufferSize).length - 5) := by
    rw [cex_buffer_length]
    decide
  have hpos : posLoop cexF
      ⟨cexBytes.take bufferSize, 5, cexBytes.drop bufferSize⟩ [] 0 = none := by
    have hphase := @posLoop_ones (cexBytes.take bufferSize)
      (cexBytes.drop bufferSize) cexJ 1 5 [] 0 hdrop5 hlen5
    rw [show cexF = cexJ + 1 from by decide, hphase]
    exact posLoop_fail (cexBytes.take bufferSize) (5 + cexJ)
      (cexBytes.drop bufferSize) hg2 hdec2 0 _ _
  have hg1 : ¬ ((1 : Nat) ≥ (cexBytes.take bufferSize).length - 10) := by
    rw [cex_buffer_length]
    decide
  have hloop : entryLoop 1
      ⟨cexBytes.take bufferSize, 1, cexBytes.drop bufferSize⟩ [] 0 = none :=
    entryLoop_posFail (cexBytes.take bufferSize) 1 (cexBytes.drop bufferSize)
      hg1 hdd hdf hpos 0 [] 0
  unfold get_postings
  rw [List.drop_zero]
  have hne : cexBytes.take bufferSize ≠ [] := by
    rw [cex_buffer]
    simp
  rw [if_neg hne, hdc]
  dsimp only
  rw [hloop]
  rfl

/-- C1 is refuted as a universal statement: for the single-document map
`cexMap` — positions `1 .. 1048565` and one final position `1048565 + 2^42`
— `write_term_entry` succeeds, yet `get_postings` on the written bytes
raises the truncated-stream `IndexError` (returns `none`) instead of the
written map: the 7-byte varbyte of the `2^42` position gap begins 6 bytes
before the 1 MiB buffer boundary, the 5-byte safety margin does not
trigger a refill, and the decode runs off the end of the buffer. -/
theorem claim_c1_roundtrip_counterexample :
    write_term_entry_post cexMap = some cexBytes ∧
      get_postings cexBytes 0 = none :=
  ⟨cex_write, cex_read⟩

/-! ## The SPIMI builder (`indexer.py`) -/

/-- Bytewise `<=` on byte strings (Python compares `str` terms by code
point; the data model's terms are byte strings compared bytewise, and
UTF-8 order coincides with code-point order). -/
def leBytes : List Nat → List Nat → Bool
  | [], _ => true
  | _ :: _, [] => false
  | a :: as, b :: bs =>
    if a < b then true else if b < a then false else leBytes as bs

/-- Strict bytewise `<`. -/
def ltBytes (a b : List Nat) : Bool := leBytes a b && !(leBytes b a)

/-- `local_index[token][doc_id].append(pos)` on the inner per-term dict. -/
def addPosDoc : List (Nat × List Nat) → Nat → Nat → List (Nat × List Nat)
  | [], doc_id, pos => [(doc_id, [pos])]
  | (k, ps) :: rest, doc_id, pos =>
    if k = doc_id then (k, ps ++ [pos]) :: rest
    else (k, ps) :: addPosDoc rest doc_id pos

/-- `local_index[token][doc_id].append(pos)` on the outer term dict. -/
def addToken : List (List Nat × List (Nat × List Nat)) → List Nat → Nat → Nat →
    List (List Nat × List (Nat × List Nat))
  | [], tok, doc_id, pos => [(tok, [(doc_id, [pos])])]
  | (t, dm) :: rest, tok, doc_id, pos =>
    if t = tok then (t, addPosDoc dm doc_id pos) :: rest
    else (t, dm) :: addToken rest tok doc_id pos

/-- `for pos, token in enumerate(tokens): local_index[token][doc_id].append(pos)`. -/
def indexDoc (li : List (List Nat × List (Nat × List Nat))) (doc_id pos : Nat) :
    List (List Nat) → List (List Nat × List (Nat × List Nat))
  | [] => li
  | t :: ts => indexDoc (addToken li t doc_id pos) doc_id (pos + 1) ts

/-- `save_temp_block` (indexer.py lines 61-67): serialize the in-memory
index in ascending term order (`sorted(index.keys())`). -/
def save_temp_block (li : List (List Nat × List (Nat × List Nat))) :
    List (List Nat × List (Nat × List Nat)) :=
  sortLe (fun a b => leBytes a.1 b.1) li

/-- `BLOCK_SIZE` (indexer.py line 22). -/
def BLOCK_SIZE : Nat := 5000

/-- The document loop of `build_index` (indexer.py lines 168-188): index
each document, spill a sorted block every `BLOCK_SIZE` documents, and
spill the tail block if non-empty. -/
def buildBlocksGo (li : List (List Nat × List (Nat × List Nat)))
    (blocks : List (List (List Nat × List (Nat × List Nat)))) (doc_id : Nat) :
    List (List (List Nat)) → List (List (List Nat × List (Nat × List Nat)))
  | [] => if li = [] then blocks else blocks ++ [save_temp_block li]
  | doc :: rest =>
    if (doc_id + 1) % BLOCK_SIZE = 0 then
      buildBlocksGo [] (blocks ++ [save_temp_block (indexDoc li doc_id 0 doc)])
        (doc_id + 1) rest
    else
      buildBlocksGo (indexDoc li doc_id 0 doc) blocks (doc_id + 1) rest

/-- All blocks spilled by a build over a stream of tokenized documents. -/
def buildBlocks (docs : List (List (List Nat))) :
    List (List (List Nat × List (Nat × List Nat))) :=
  buildBlocksGo [] [] 0 docs

/-- One step of `heapq.merge(*iterators, key=term)`: pick the head with
the smallest key, preferring the earliest iterator on ties, and return it
together with the remaining configuration. -/
def pickMin : List (List (List Nat × List (Nat × List Nat))) →
    Option ((List Nat × List (Nat × List Nat)) ×
      List (List (List Nat × List (Nat × List Nat))))
  | [] => none
  | [] :: rest => (pickMin rest).map (fun p => (p.1, [] :: p.2))
  | (x :: xs) :: rest =>
    match pickMin rest with
    | none => some (x, xs :: rest)
    | some (e, ls) =>
      if ltBytes e.1 x.1 then some (e, (x :: xs) :: ls)
      else some (x, xs :: rest)

/-- `heapq.merge` as repeated minimum extraction (with fuel: the total
number of elements always suffices). -/
def kmergeGo : Nat → List (List (List Nat × List (Nat × List Nat))) →
    List (List Nat × List (Nat × List Nat))
  | 0, _ => []
  | fuel + 1, ls =>
    match pickMin ls with
    | none => []
    | some (e, ls') => e :: kmergeGo fuel ls'

/-- The merged term stream of `merge_blocks`. -/
def kmerge (ls : List (List (List Nat × List (Nat × List Nat)))) :
    List (List Nat × List (Nat × List Nat)) :=
  kmergeGo (ls.map List.length).sum ls

/-- Python `current_docs.update(doc_map)`. -/
def dictUpdate (old new : List (Nat × List Nat)) : List (Nat × List Nat) :=
  new.foldl (fun acc p => assocSet acc p.1 p.2) old

/-- The grouping-and-writing loop of `merge_blocks` (indexer.py lines
94-114): accumulate doc maps while the term repeats, emit one
`write_term_entry` per distinct term, and track the postings offset. -/
def mergeWrite : List (List Nat × List (Nat × List Nat)) → List Nat →
    List (Nat × List Nat) → Nat → Option (List (List Nat × Nat × Nat) × List Nat)
  | [], t, docs, offset =>
    (write_term_entry t docs offset).map (fun p => ([p.2], p.1))
  | (t', dm) :: rest, t, docs, offset =>
    if t' = t then mergeWrite rest t (dictUpdate docs dm) offset
    else
      match write_term_entry t docs offset with
      | none => none
      | some (body, e) =>
        (mergeWrite rest t' dm (offset + body.length)).map
          (fun p => (e :: p.1, body ++ p.2))

/-- `merge_blocks` (indexer.py lines 77-114): merge the blocks and write
the dictionary entries and the postings payload; the postings file starts
with the 6-byte `POST` + version header, so the first offset is 6.  The
result is the dictionary entry list (term bytes truncated to 255 +
offset + doc count; the on-disk file serializes these after its own
header and count) and the full postings file bytes. -/
def merge_blocks (blocks : List (List (List Nat × List (Nat × List Nat)))) :
    Option (List (List Nat × Nat × Nat) × List Nat) :=
  match kmerge blocks with
  | [] => some ([], [80, 79, 83, 84, 3, 0])
  | (t, dm) :: rest =>
    (mergeWrite rest t dm 6).map (fun p => (p.1, [80, 79, 83, 84, 3, 0] ++ p.2))

/-! ### Order lemmas for the dictionary -/

theorem leBytes_refl : ∀ a : List Nat, leBytes a a = true := by
  intro a
  induction a with
  | nil => rfl
  | cons x xs ih => simp [leBytes, ih]

theorem leBytes_total : ∀ a b : List Nat, leBytes a b = true ∨ leBytes b a = true := by
  intro a
  induction a with
  | nil => intro b; left; rfl
  | cons x xs ih =>
    intro b
    cases b with
    | nil => right; rfl
    | cons y ys =>
      rcases Nat.lt_trichotomy x y with h | h | h
      · left; simp [leBytes, h]
      · subst h
        rcases ih ys with h2 | h2
        · left; simp [leBytes, h2]
        · right; simp [leBytes, h2]
      · right; simp [leBytes, h]

theorem leBytes_trans : ∀ a b c : List Nat, leBytes a b = true →
    leBytes b c = true → leBytes a c = true := by
  intro a
  induction a with
  | nil => intro b c _ _; rfl
  | cons x xs ih =>
    intro b c h1 h2
    cases b with
    | nil => simp [leBytes] at h1
    | cons y ys =>
      cases c with
      | nil => simp [leBytes] at h2
      | cons z zs =>
        simp only [leBytes] at h1 h2 ⊢
        rcases Nat.lt_trichotomy x y with hxy | hxy | hxy
        · rcases Nat.lt_trichotomy y z with hyz | hyz | hyz
          · simp [show x < z from by omega]
          · subst hyz; simp [hxy]
          · rw [if_neg (by omega), if_pos hyz] at h2; exact absurd h2 (by simp)
        · subst hxy
          rcases Nat.lt_trichotomy x z with hyz | hyz | hyz
          · simp [hyz]
          · subst hyz
            simp only [Nat.lt_irrefl, if_false] at h1 h2 ⊢
            exact ih ys zs h1 h2
          · rw [if_neg (by omega), if_pos hyz] at h2; exact absurd h2 (by simp)
        · rw [if_neg (by omega), if_pos hxy] at h1; exact absurd h1 (by simp)

theorem leBytes_antisymm : ∀ a b : List Nat, leBytes a b = true →
    leBytes b a = true → a = b := by
  intro a
  induction a with
  | nil =>
    intro b _ h2
    cases b with
    | nil => rfl
    | cons y ys => simp [leBytes] at h2
  | cons x xs ih =>
    intro b h1 h2
    cases b with
    | nil => simp [leBytes] at h1
    | cons y ys =>
      simp only [leBytes] at h1 h2
      rcases Nat.lt_trichotomy x y with hxy | hxy | hxy
      · rw [if_neg (by omega), if_pos hxy] at h2; exact absurd h2 (by simp)
      · subst hxy
        simp only [Nat.lt_irrefl, if_false] at h1 h2
        rw [ih ys h1 h2]
      · rw [if_neg (by omega), if_pos hxy] at h1; exact absurd h1 (by simp)

theorem ltBytes_of_le_of_ne {a b : List Nat} (h1 : leBytes a b = true)
    (h2 : a ≠ b) : ltBytes a b = true := by
  unfold ltBytes
  rw [h1]
  have h3 : leBytes b a = false := by
    cases h4 : leBytes b a
    · rfl
    · exact absurd (leBytes_antisymm a b h1 h4) h2
  rw [h3]
  rfl

theorem leBytes_of_lt {a b : List Nat} (h : ltBytes a b = true) :
    leBytes a b = true := by
  unfold ltBytes at h
  exact (Bool.and_eq_true_iff.mp h).1

theorem ne_of_ltBytes {a b : List Nat} (h : ltBytes a b = true) : a ≠ b := by
  intro hcon
  subst hcon
  unfold ltBytes at h
  rw [leBytes_refl] at h
  simp at h

theorem leBytes_take : ∀ (k : Nat) (a b : List Nat), leBytes a b = true →
    leBytes (a.take k) (b.take k) = true := by
  intro k
  induction k with
  | zero => intro a b _; rfl
  | succ k ih =>
    intro a b h
    cases a with
    | nil => rfl
    | cons x xs =>
      cases b with
      | nil => simp [leBytes] at h
      | cons y ys =>
        simp only [leBytes, List.take] at h ⊢
        rcases Nat.lt_trichotomy x y with hxy | hxy | hxy
        · simp [hxy]
        · subst hxy
          simp only [Nat.lt_irrefl, if_false] at h ⊢
          exact ih xs ys h
        · rw [if_neg (by omega), if_pos hxy] at h; exact absurd h (by simp)

/-- Pairwise bytewise order on a merged stream keyed by term. -/
def StreamLe (l : List (List Nat × List (Nat × List Nat))) : Prop :=
  l.Pairwise (fun a b => leBytes a.1 b.1 = true)

theorem pickMin_head : ∀ {ls : List (List (List Nat × List (Nat × List Nat)))}
    {e ls'}, pickMin ls = some (e, ls') →
    ∃ l ∈ ls, ∃ tl, l = e :: tl := by
  intro ls
  induction ls with
  | nil => intro e ls' h; simp [pickMin] at h
  | cons l rest ih =>
    intro e ls' h
    cases l with
    | nil =>
      rw [pickMin] at h
      cases hr : pickMin rest with
      | none => rw [hr] at h; exact absurd h (by simp)
      | some p =>
        obtain ⟨pe, pls⟩ := p
        rw [hr] at h
        dsimp only [Option.map] at h
        have h2 := Option.some.inj h
        injection h2 with h3 h4
        subst h3
        rcases ih hr with ⟨l2, hl2, tl, htl⟩
        exact ⟨l2, by simp [hl2], tl, htl⟩
    | cons x xs =>
      rw [pickMin] at h
      cases hr : pickMin rest with
      | none =>
        rw [hr] at h
        dsimp only at h
        have h2 := Option.some.inj h
        injection h2 with h3 h4
        subst h3
        exact ⟨x :: xs, by simp, xs, rfl⟩
      | some p =>
        obtain ⟨pe, pls⟩ := p
        rw [hr] at h
        dsimp only at h
        by_cases hc : ltBytes pe.1 x.1 = true
        · rw [if_pos hc] at h
          have h2 := Option.some.inj h
          injection h2 with h3 h4
          subst h3
          rcases ih hr with ⟨l2, hl2, tl, htl⟩
          exact ⟨l2, by simp [hl2], tl, htl⟩
        · rw [if_neg hc] at h
          have h2 := Option.some.inj h
          injection h2 with h3 h4
          subst h3
          exact ⟨x :: xs, by simp, xs, rfl⟩

theorem pickMin_none : ∀ {ls : List (List (List Nat × List (Nat × List Nat)))},
    pickMin ls = none → ∀ l ∈ ls, l = [] := by
  intro ls
  induction ls with
  | nil => intro _ l hl; simp at hl
  | cons l rest ih =>
    intro h l0 hl0
    cases l with
    | nil =>
      rw [pickMin] at h
      cases hr : pickMin rest with
      | none =>
        rcases List.mem_cons.mp hl0 with hm | hm
        · exact hm
        · exact ih hr l0 hm
      | some p => rw [hr] at h; exact absurd h (by simp)
    | cons x xs =>
      rw [pickMin] at h
      cases hr : pickMin rest with
      | none => rw [hr] at h; exact absurd h (by simp)
      | some p =>
        obtain ⟨pe, pls⟩ := p
        rw [hr] at h
        dsimp only at h
        by_cases hc : ltBytes pe.1 x.1 = true
        · rw [if_pos hc] at h; exact absurd h (by simp)
        · rw [if_neg hc] at h; exact absurd h (by simp)

theorem pickMin_tails : ∀ {ls : List (List (List Nat × List (Nat × List Nat)))}
    {e ls'}, pickMin ls = some (e, ls') →
    ∀ l' ∈ ls', l' ∈ ls ∨ e :: l' ∈ ls := by
  intro ls
  induction ls with
  | nil => intro e ls' h; simp [pickMin] at h
  | cons l rest ih =>
    intro e ls' h l0 hl0
    cases l with
    | nil =>
      rw [pickMin] at h
      cases hr : pickMin rest with
      | none => rw [hr] at h; exact absurd h (by simp)
      | some p =>
        obtain ⟨pe, pls⟩ := p
        rw [hr] at h
        dsimp only [Option.map] at h
        have h2 := Option.some.inj h
        injection h2 with h3 h4
        subst h3; subst h4
        rcases List.mem_cons.mp hl0 with hm | hm
        · exact Or.inl (List.mem_cons.mpr (Or.inl hm))
        · rcases ih hr l0 hm with hm2 | hm2
          · exact Or.inl (List.mem_cons.mpr (Or.inr hm2))
          · exact Or.inr (List.mem_cons.mpr (Or.inr hm2))
    | cons x xs =>
      rw [pickMin] at h
      cases hr : pickMin rest with
      | none =>
        rw [hr] at h
        dsimp only at h
        have h2 := Option.some.inj h
        injection h2 with h3 h4
        subst h3; subst h4
        rcases List.mem_cons.mp hl0 with hm | hm
        · exact Or.inr (List.mem_cons.mpr (Or.inl (by rw [hm])))
        · exact Or.inl (List.mem_cons.mpr (Or.inr hm))
      | some p =>
        obtain ⟨pe, pls⟩ := p
        rw [hr] at h
        dsimp only at h
        by_cases hc : ltBytes pe.1 x.1 = true
        · rw [if_pos hc] at h
          have h2 := Option.some.inj h
          injection h2 with h3 h4
          subst h3; subst h4
          rcases List.mem_cons.mp hl0 with hm | hm
          · exact Or.inl (List.mem_cons.mpr (Or.inl hm))
          · rcases ih hr l0 hm with hm2 | hm2
            · exact Or.inl (List.mem_cons.mpr (Or.inr hm2))
            · exact Or.inr (List.mem_cons.mpr (Or.inr hm2))
        · rw [if_neg hc] at h
          have h2 := Option.some.inj h
          injection h2 with h3 h4
          subst h3; subst h4
          rcases List.mem_cons.mp hl0 with hm | hm
          · exact Or.inr (List.mem_cons.mpr (Or.inl (by rw [hm])))
          · exact Or.inl (List.mem_cons.mpr (Or.inr hm))

theorem pickMin_cover : ∀ {ls : List (List (List Nat × List (Nat × List Nat)))}
    {e ls'}, pickMin ls = some (e, ls') →
    ∀ l ∈ ls, ∀ y ∈ l, y = e ∨ ∃ l' ∈ ls', y ∈ l' := by
  intro ls
  induction ls with
  | nil => intro e ls' h; simp [pickMin] at h
  | cons l rest ih =>
    intro e ls' h l0 hl0 y hy
    cases l with
    | nil =>
      rw [pickMin] at h
      cases hr : pickMin rest with
      | none => rw [hr] at h; exact absurd h (by simp)
      | some p =>
        obtain ⟨pe, pls⟩ := p
        rw [hr] at h
        dsimp only [Option.map] at h
        have h2 := Option.some.inj h
        injection h2 with h3 h4
        subst h3; subst h4
        rcases List.mem_cons.mp hl0 with hm | hm
        · subst hm; simp at hy
        · rcases ih hr l0 hm y hy with hm2 | ⟨l1, hl1, hyl1⟩
          · exact Or.inl hm2
          · exact Or.inr ⟨l1, List.mem_cons.mpr (Or.inr hl1), hyl1⟩
    | cons x xs =>
      rw [pickMin] at h
      cases hr : pickMin rest with
      | none =>
        rw [hr] at h
        dsimp only at h
        have h2 := Option.some.inj h
        injection h2 with h3 h4
        subst h3; subst h4
        rcases List.mem_cons.mp hl0 with hm | hm
        · subst hm
          rcases List.mem_cons.mp hy with hm2 | hm2
          · exact Or.inl hm2
          · exact Or.inr ⟨xs, List.mem_cons.mpr (Or.inl rfl), hm2⟩
        · exact Or.inr ⟨l0, List.mem_cons.mpr (Or.inr hm), hy⟩
      | some p =>
        obtain ⟨pe, pls⟩ := p
        rw [hr] at h
        dsimp only at h
        by_cases hc : ltBytes pe.1 x.1 = true
        · rw [if_pos hc] at h
          have h2 := Option.some.inj h
          injection h2 with h3 h4
          subst h3; subst h4
          rcases List.mem_cons.mp hl0 with hm | hm
          · exact Or.inr ⟨l0, List.mem_cons.mpr (Or.inl hm), hy⟩
          · rcases ih hr l0 hm y hy with hm2 | ⟨l1, hl1, hyl1⟩
            · exact Or.inl hm2
            · exact Or.inr ⟨l1, List.mem_cons.mpr (Or.inr hl1), hyl1⟩
        · rw [if_neg hc] at h
          have h2 := Option.some.inj h
          injection h2 with h3 h4
          subst h3; subst h4
          rcases List.mem_cons.mp hl0 with hm | hm
          · subst hm
            rcases List.mem_cons.mp hy with hm2 | hm2
            · exact Or.inl hm2
            · exact Or.inr ⟨xs, List.mem_cons.mpr (Or.inl rfl), hm2⟩
          · exact Or.inr ⟨l0, List.mem_cons.mpr (Or.inr hm), hy⟩

theorem pickMin_min : ∀ {ls : List (List (List Nat × List (Nat × List Nat)))}
    {e ls'}, (∀ l ∈ ls, l.Pairwise (fun a b => leBytes a.1 b.1 = true)) →
    pickMin ls = some (e, ls') →
    ∀ l' ∈ ls', ∀ y ∈ l', leBytes e.1 y.1 = true := by
  intro ls
  induction ls with
  | nil => intro e ls' _ h; simp [pickMin] at h
  | cons l rest ih =>
    intro e ls' hs h l0 hl0 y hy
    have hsrest : ∀ l ∈ rest, l.Pairwise (fun a b => leBytes a.1 b.1 = true) :=
      fun l hl => hs l (List.mem_cons.mpr (Or.inr hl))
    cases l with
    | nil =>
      rw [pickMin] at h
      cases hr : pickMin rest with
      | none => rw [hr] at h; exact absurd h (by simp)
      | some p =>
        obtain ⟨pe, pls⟩ := p
        rw [hr] at h
        dsimp only [Option.map] at h
        have h2 := Option.some.inj h
        injection h2 with h3 h4
        subst h3; subst h4
        rcases List.mem_cons.mp hl0 with hm | hm
        · subst hm; simp at hy
        · exact ih hsrest hr l0 hm y hy
    | cons x xs =>
      have hx : (List.cons x xs).Pairwise (fun a b => leBytes a.1 b.1 = true) :=
        hs _ (List.mem_cons.mpr (Or.inl rfl))
      have hxs : ∀ z ∈ xs, leBytes x.1 z.1 = true :=
        fun z hz => (List.pairwise_cons.mp hx).1 z hz
      rw [pickMin] at h
      cases hr : pickMin rest with
      | none =>
        rw [hr] at h
        dsimp only at h
        have h2 := Option.some.inj h
        injection h2 with h3 h4
        subst h3; subst h4
        rcases List.mem_cons.mp hl0 with hm | hm
        · subst hm; exact hxs y hy
        · rw [pickMin_none hr l0 hm] at hy; simp at hy
      | some p =>
        obtain ⟨pe, pls⟩ := p
        rw [hr] at h
        dsimp only at h
        by_cases hc : ltBytes pe.1 x.1 = true
        · rw [if_pos hc] at h
          have h2 := Option.some.inj h
          injection h2 with h3 h4
          subst h3; subst h4
          rcases List.mem_cons.mp hl0 with hm | hm
          · subst hm
            rcases List.mem_cons.mp hy with hm2 | hm2
            · rw [hm2]; exact leBytes_of_lt hc
            · exact leBytes_trans _ _ _ (leBytes_of_lt hc) (hxs y hm2)
          · exact ih hsrest hr l0 hm y hy
        · rw [if_neg hc] at h
          have h2 := Option.some.inj h
          injection h2 with h3 h4
          subst h3; subst h4
          have hxpe : leBytes x.1 pe.1 = true := by
            rcases leBytes_total x.1 pe.1 with ht | ht
            · exact ht
            · unfold ltBytes at hc
              rw [ht] at hc
              cases ht2 : leBytes x.1 pe.1
              · rw [ht2] at hc; simp at hc
              · rfl
          rcases List.mem_cons.mp hl0 with hm | hm
          · subst hm; exact hxs y hy
          · rcases pickMin_cover hr l0 hm y hy with hm2 | ⟨l1, hl1, hyl1⟩
            · rw [hm2]; exact hxpe
            · exact leBytes_trans _ _ _ hxpe (ih hsrest hr l1 hl1 y hyl1)

theorem kmergeGo_mem : ∀ (fuel : Nat)
    (ls : List (List (List Nat × List (Nat × List Nat)))),
    ∀ x ∈ kmergeGo fuel ls, ∃ l ∈ ls, x ∈ l := by
  intro fuel
  induction fuel with
  | zero => intro ls x hx; simp [kmergeGo] at hx
  | succ f ih =>
    intro ls x hx
    rw [kmergeGo] at hx
    cases hp : pickMin ls with
    | none => rw [hp] at hx; simp at hx
    | some p =>
      obtain ⟨e, ls'⟩ := p
      rw [hp] at hx
      dsimp only at hx
      rcases List.mem_cons.mp hx with hm | hm
      · rcases pickMin_head hp with ⟨l, hl, tl, htl⟩
        refine ⟨l, hl, ?_⟩
        rw [htl, hm]
        exact List.mem_cons.mpr (Or.inl rfl)
      · rcases ih ls' x hm with ⟨l', hl', hx'⟩
        rcases pickMin_tails hp l' hl' with h2 | h2
        · exact ⟨l', h2, hx'⟩
        · exact ⟨e :: l', h2, List.mem_cons.mpr (Or.inr hx')⟩

theorem kmergeGo_sorted : ∀ (fuel : Nat)
    (ls : List (List (List Nat × List (Nat × List Nat)))),
    (∀ l ∈ ls, l.Pairwise (fun a b => leBytes a.1 b.1 = true)) →
    (kmergeGo fuel ls).Pairwise (fun a b => leBytes a.1 b.1 = true) := by
  intro fuel
  induction fuel with
  | zero => intro ls _; simp [kmergeGo]
  | succ f ih =>
    intro ls hs
    rw [kmergeGo]
    cases hp : pickMin ls with
    | none => simp
    | some p =>
      obtain ⟨e, ls'⟩ := p
      dsimp only
      have hs' : ∀ l ∈ ls', l.Pairwise (fun a b => leBytes a.1 b.1 = true) := by
        intro l hl
        rcases pickMin_tails hp l hl with h2 | h2
        · exact hs l h2
        · exact (hs (e :: l) h2).of_cons
      refine List.pairwise_cons.mpr ⟨?_, ih ls' hs'⟩
      intro y hy
      rcases kmergeGo_mem f ls' y hy with ⟨l', hl', hy'⟩
      exact pickMin_min hs hp l' hl' y hy'

/-- The merged stream is sorted by term whenever every block is. -/
theorem kmerge_sorted (ls : List (List (List Nat × List (Nat × List Nat))))
    (hs : ∀ l ∈ ls, l.Pairwise (fun a b => leBytes a.1 b.1 = true)) :
    StreamLe (kmerge ls) :=
  kmergeGo_sorted _ ls hs

theorem kmerge_mem (ls : List (List (List Nat × List (Nat × List Nat)))) :
    ∀ x ∈ kmerge ls, ∃ l ∈ ls, x ∈ l :=
  kmergeGo_mem _ ls

/-- `write_term_entry` never fails and its dictionary entry starts with the
term truncated to 255 bytes. -/
theorem write_term_entry_eq (term : List Nat) (doc_map : List (Nat × List Nat))
    (offset : Nat) :
    write_term_entry term doc_map offset = some (natPostBytes doc_map,
      (term.take 255, offset, (sortLe Nat.ble (doc_map.map Prod.fst)).length)) := by
  unfold write_term_entry
  rw [write_term_entry_post_eq]
  rfl

/-- The terms written by the grouping loop of `merge_blocks`: the dictionary
keys are the 255-byte truncations of a strictly ascending list of raw terms,
each of which is the pending term or a term of the remaining stream. -/
theorem mergeWrite_keys : ∀ (stream : List (List Nat × List (Nat × List Nat)))
    (t : List Nat) (docs : List (Nat × List Nat)) (offset : Nat)
    (dict : List (List Nat × Nat × Nat)) (post : List Nat),
    stream.Pairwise (fun a b => leBytes a.1 b.1 = true) →
    (∀ s ∈ stream, leBytes t s.1 = true) →
    mergeWrite stream t docs offset = some (dict, post) →
    ∃ reps : List (List Nat),
      dict.map Prod.fst = reps.map (fun u => List.take 255 u) ∧
      reps.Chain' (fun a b => ltBytes a b = true) ∧
      (∀ u ∈ reps, u = t ∨ ∃ s ∈ stream, u = s.1) := by
  intro stream
  induction stream with
  | nil =>
    intro t docs offset dict post _ _ h
    rw [mergeWrite, write_term_entry_eq] at h
    dsimp only [Option.map] at h
    have h2 := Option.some.inj h
    injection h2 with h3 h4
    subst h3
    exact ⟨[t], rfl, List.chain'_singleton _, fun u hu => Or.inl (by
      rcases List.mem_cons.mp hu with hm | hm
      · exact hm
      · simp at hm)⟩
  | cons s rest ih =>
    intro t docs offset dict post hsort hle h
    obtain ⟨t', dm⟩ := s
    rw [mergeWrite] at h
    by_cases hc : t' = t
    · rw [if_pos hc] at h
      have hsort' : rest.Pairwise (fun a b => leBytes a.1 b.1 = true) :=
        (List.pairwise_cons.mp hsort).2
      have hle' : ∀ s ∈ rest, leBytes t s.1 = true := by
        intro s hs
        have := (List.pairwise_cons.mp hsort).1 s hs
        rw [hc] at this
        exact this
      rcases ih t (dictUpdate docs dm) offset dict post hsort' hle' h
        with ⟨reps, hmap, hchain, hmem⟩
      refine ⟨reps, hmap, hchain, fun u hu => ?_⟩
      rcases hmem u hu with hm | ⟨s1, hs1, hu1⟩
      · exact Or.inl hm
      · exact Or.inr ⟨s1, List.mem_cons.mpr (Or.inr hs1), hu1⟩
    · rw [if_neg hc, write_term_entry_eq] at h
      dsimp only at h
      cases hmw : mergeWrite rest t' dm (offset + (natPostBytes docs).length) with
      | none => rw [hmw] at h; exact absurd h (by simp)
      | some q =>
        obtain ⟨dict', post'⟩ := q
        rw [hmw] at h
        dsimp only [Option.map] at h
        have h2 := Option.some.inj h
        injection h2 with h3 h4
        subst h3
        have hsort' : rest.Pairwise (fun a b => leBytes a.1 b.1 = true) :=
          (List.pairwise_cons.mp hsort).2
        have hle' : ∀ s ∈ rest, leBytes t' s.1 = true :=
          fun s hs => (List.pairwise_cons.mp hsort).1 s hs
        rcases ih t' dm _ dict' post' hsort' hle' hmw
          with ⟨reps, hmap, hchain, hmem⟩
        refine ⟨t :: reps, ?_, ?_, ?_⟩
        · dsimp only [List.map]
          rw [hmap]
        · refine List.chain'_cons'.mpr ⟨?_, hchain⟩
          intro u hu
          have hhead : ∀ v ∈ reps.head?, leBytes t' v = true := by
            intro v hv
            cases reps with
            | nil => simp at hv
            | cons r rtl =>
              have hr := hmem r (List.mem_cons.mpr (Or.inl rfl))
              have hv2 : v = r := by
                rw [Option.mem_def] at hv
                exact (Option.some.inj hv).symm
              subst hv2
              rcases hr with hm | ⟨s1, hs1, hr1⟩
              · rw [hm]; exact leBytes_refl _
              · rw [hr1]; exact hle' s1 hs1
          have htt' : ltBytes t t' = true := by
            have hlt : leBytes t t' = true :=
              hle (t', dm) (List.mem_cons.mpr (Or.inl rfl))
            exact ltBytes_of_le_of_ne hlt (fun he => hc he.symm)
          have h5 := hhead u hu
          exact ltBytes_of_le_of_ne
            (leBytes_trans _ _ _ (leBytes_of_lt htt') h5)
            (fun he => by
              rw [← he] at h5
              exact absurd (leBytes_antisymm _ _ (leBytes_of_lt htt') h5)
                (ne_of_ltBytes htt'))
        · intro u hu
          rcases List.mem_cons.mp hu with hm | hm
          · exact Or.inl hm
          · rcases hmem u hm with hm2 | ⟨s1, hs1, hu1⟩
            · exact Or.inr ⟨(t', dm), List.mem_cons.mpr (Or.inl rfl), by rw [hm2]⟩
            · exact Or.inr ⟨s1, List.mem_cons.mpr (Or.inr hs1), hu1⟩

theorem ltBytes_trans {a b c : List Nat} (h1 : ltBytes a b = true)
    (h2 : ltBytes b c = true) : ltBytes a c = true := by
  have hab := leBytes_of_lt h1
  have hbc := leBytes_of_lt h2
  refine ltBytes_of_le_of_ne (leBytes_trans _ _ _ hab hbc) (fun he => ?_)
  subst he
  exact absurd (leBytes_antisymm _ _ hab hbc) (ne_of_ltBytes h1)

theorem chain_ltBytes_rel : ∀ {zs : List (List Nat)} {z y : List Nat},
    (z :: zs).Chain' (fun a b => ltBytes a b = true) → y ∈ zs →
    ltBytes z y = true := by
  intro zs
  induction zs with
  | nil => intro z y _ hy; simp at hy
  | cons w ws ih =>
    intro z y h hy
    have h2 := List.chain'_cons'.mp h
    have hzw : ltBytes z w = true := h2.1 w rfl
    rcases List.mem_cons.mp hy with hm | hm
    · rw [hm]; exact hzw
    · exact ltBytes_trans hzw (ih h2.2 hm)

theorem chain_ltBytes_pairwise : ∀ {l : List (List Nat)},
    l.Chain' (fun a b => ltBytes a b = true) →
    l.Pairwise (fun a b => ltBytes a b = true) := by
  intro l
  induction l with
  | nil => intro _; exact List.Pairwise.nil
  | cons x xs ih =>
    intro h
    have h2 := List.chain'_cons'.mp h
    exact List.pairwise_cons.mpr
      ⟨fun y hy => chain_ltBytes_rel h hy, ih h2.2⟩

theorem chain_ltBytes_nodup {l : List (List Nat)}
    (h : l.Chain' (fun a b => ltBytes a b = true)) : l.Nodup :=
  (chain_ltBytes_pairwise h).imp (fun hab => ne_of_ltBytes hab)

/-- Every spilled block is sorted by term (`sorted(index.keys())`). -/
theorem save_temp_block_sorted (li : List (List Nat × List (Nat × List Nat))) :
    (save_temp_block li).Pairwise (fun a b => leBytes a.1 b.1 = true) :=
  sortLe_pairwise (fun a b c => leBytes_trans a.1 b.1 c.1)
    (fun a b => leBytes_total a.1 b.1) li

theorem buildBlocksGo_sorted : ∀ (docs : List (List (List Nat)))
    (li : List (List Nat × List (Nat × List Nat)))
    (blocks : List (List (List Nat × List (Nat × List Nat)))) (d : Nat),
    (∀ b ∈ blocks, b.Pairwise (fun a b => leBytes a.1 b.1 = true)) →
    ∀ b ∈ buildBlocksGo li blocks d docs,
      b.Pairwise (fun a b => leBytes a.1 b.1 = true) := by
  intro docs
  induction docs with
  | nil =>
    intro li blocks d hb b hmem
    rw [buildBlocksGo] at hmem
    by_cases hli : li = []
    · rw [if_pos hli] at hmem; exact hb b hmem
    · rw [if_neg hli] at hmem
      rcases List.mem_append.mp hmem with hm | hm
      · exact hb b hm
      · rw [List.mem_singleton.mp hm]; exact save_temp_block_sorted li
  | cons doc rest ih =>
    intro li blocks d hb b hmem
    rw [buildBlocksGo] at hmem
    by_cases hd : (d + 1) % BLOCK_SIZE = 0
    · rw [if_pos hd] at hmem
      refine ih [] _ (d + 1) ?_ b hmem
      intro b' hb'
      rcases List.mem_append.mp hb' with hm | hm
      · exact hb b' hm
      · rw [List.mem_singleton.mp hm]; exact save_temp_block_sorted _
    · rw [if_neg hd] at hmem
      exact ih _ blocks (d + 1) hb b hmem

/-- All blocks of a build are sorted by term. -/
theorem buildBlocks_sorted (docs : List (List (List Nat))) :
    ∀ b ∈ buildBlocks docs, b.Pairwise (fun a b => leBytes a.1 b.1 = true) :=
  buildBlocksGo_sorted docs [] [] 0 (fun b hb => absurd hb (by simp))

theorem addToken_keysP {P : List Nat → Prop} :
    ∀ (li : List (List Nat × List (Nat × List Nat))) (tok : List Nat)
      (d pos : Nat), (∀ p ∈ li, P p.1) → P tok →
    ∀ p ∈ addToken li tok d pos, P p.1 := by
  intro li
  induction li with
  | nil =>
    intro tok d pos _ htok p hp
    rw [addToken] at hp
    rw [List.mem_singleton.mp hp]
    exact htok
  | cons q rest ih =>
    intro tok d pos hli htok p hp
    obtain ⟨t, dm⟩ := q
    rw [addToken] at hp
    by_cases hc : t = tok
    · rw [if_pos hc] at hp
      rcases List.mem_cons.mp hp with hm | hm
      · rw [hm]; exact hli (t, dm) (List.mem_cons.mpr (Or.inl rfl))
      · exact hli p (List.mem_cons.mpr (Or.inr hm))
    · rw [if_neg hc] at hp
      rcases List.mem_cons.mp hp with hm | hm
      · rw [hm]; exact hli (t, dm) (List.mem_cons.mpr (Or.inl rfl))
      · exact ih tok d pos (fun q hq => hli q (List.mem_cons.mpr (Or.inr hq)))
          htok p hm

theorem indexDoc_keysP {P : List Nat → Prop} :
    ∀ (toks : List (List Nat)) (li : List (List Nat × List (Nat × List Nat)))
      (d pos : Nat), (∀ p ∈ li, P p.1) → (∀ t ∈ toks, P t) →
    ∀ p ∈ indexDoc li d pos toks, P p.1 := by
  intro toks
  induction toks with
  | nil => intro li d pos hli _ p hp; exact hli p hp
  | cons t ts ih =>
    intro li d pos hli htoks p hp
    rw [indexDoc] at hp
    exact ih _ d (pos + 1)
      (addToken_keysP li t d pos hli (htoks t (List.mem_cons.mpr (Or.inl rfl))))
      (fun u hu => htoks u (List.mem_cons.mpr (Or.inr hu))) p hp

theorem save_temp_block_keysP {P : List Nat → Prop}
    (li : List (List Nat × List (Nat × List Nat))) (hli : ∀ p ∈ li, P p.1) :
    ∀ p ∈ save_temp_block li, P p.1 := by
  intro p hp
  rw [save_temp_block] at hp
  exact hli p ((sortLe_perm _ li).mem_iff.mp hp)

theorem buildBlocksGo_keysP {P : List Nat → Prop} :
    ∀ (docs : List (List (List Nat)))
      (li : List (List Nat × List (Nat × List Nat)))
      (blocks : List (List (List Nat × List (Nat × List Nat)))) (d : Nat),
    (∀ p ∈ li, P p.1) → (∀ b ∈ blocks, ∀ p ∈ b, P p.1) →
    (∀ doc ∈ docs, ∀ t ∈ doc, P t) →
    ∀ b ∈ buildBlocksGo li blocks d docs, ∀ p ∈ b, P p.1 := by
  intro docs
  induction docs with
  | nil =>
    intro li blocks d hli hb _ b hmem
    rw [buildBlocksGo] at hmem
    by_cases hlie : li = []
    · rw [if_pos hlie] at hmem; exact hb b hmem
    · rw [if_neg hlie] at hmem
      rcases List.mem_append.mp hmem with hm | hm
      · exact hb b hm
      · rw [List.mem_singleton.mp hm]
        exact save_temp_block_keysP li hli
  | cons doc rest ih =>
    intro li blocks d hli hb hdocs b hmem
    rw [buildBlocksGo] at hmem
    have hdoc : ∀ t ∈ doc, P t :=
      fun t ht => hdocs doc (List.mem_cons.mpr (Or.inl rfl)) t ht
    have hrest : ∀ dd ∈ rest, ∀ t ∈ dd, P t :=
      fun dd hdd => hdocs dd (List.mem_cons.mpr (Or.inr hdd))
    by_cases hd : (d + 1) % BLOCK_SIZE = 0
    · rw [if_pos hd] at hmem
      refine ih [] _ (d + 1) (fun p hp => absurd hp (by simp)) ?_ hrest b hmem
      intro b' hb'
      rcases List.mem_append.mp hb' with hm | hm
      · exact hb b' hm
      · rw [List.mem_singleton.mp hm]
        exact save_temp_block_keysP _ (indexDoc_keysP doc li d 0 hli hdoc)
    · rw [if_neg hd] at hmem
      exact ih _ blocks (d + 1) (indexDoc_keysP doc li d 0 hli hdoc) hb hrest
        b hmem

/-- Every term in every block of a build is a token of some document. -/
theorem buildBlocks_keysP {P : List Nat → Prop} (docs : List (List (List Nat)))
    (hdocs : ∀ doc ∈ docs, ∀ t ∈ doc, P t) :
    ∀ b ∈ buildBlocks docs, ∀ p ∈ b, P p.1 :=
  buildBlocksGo_keysP docs [] [] 0 (fun p hp => absurd hp (by simp))
    (fun b hb => absurd hb (by simp)) hdocs

/-- **C6 (amended).** Dictionary order: for a build over any document
stream, the serialized (255-byte-truncated) terms of consecutive dictionary
entries are always in non-decreasing bytewise order; when every token of
every document is at most 255 bytes long the serialized terms are in
strictly ascending bytewise order and are pairwise distinct (exactly one
entry per distinct term).  In full generality strictness fails: tokens
longer than 255 bytes are truncated on serialization, so two distinct
tokens sharing a 255-byte prefix produce two dictionary entries with equal
serialized terms. -/
theorem claim_c6_dict_order_amended (docs : List (List (List Nat)))
    (dict : List (List Nat × Nat × Nat)) (post : List Nat)
    (hm : merge_blocks (buildBlocks docs) = some (dict, post)) :
    (dict.map Prod.fst).Chain' (fun a b => leBytes a b = true) ∧
    ((∀ doc ∈ docs, ∀ t ∈ doc, t.length ≤ 255) →
      (dict.map Prod.fst).Chain' (fun a b => ltBytes a b = true) ∧
      (dict.map Prod.fst).Nodup) := by
  have hs : StreamLe (kmerge (buildBlocks docs)) :=
    kmerge_sorted _ (buildBlocks_sorted docs)
  unfold merge_blocks at hm
  cases hk : kmerge (buildBlocks docs) with
  | nil =>
    rw [hk] at hm
    dsimp only at hm
    have h2 := Option.some.inj hm
    injection h2 with h3 h4
    subst h3
    simp
  | cons s rest =>
    obtain ⟨t, dm⟩ := s
    rw [hk] at hm
    dsimp only at hm
    rw [hk] at hs
    unfold StreamLe at hs
    have hrest : rest.Pairwise (fun a b => leBytes a.1 b.1 = true) :=
      (List.pairwise_cons.mp hs).2
    have hhead : ∀ s' ∈ rest, leBytes t s'.1 = true :=
      fun s' hs' => (List.pairwise_cons.mp hs).1 s' hs'
    cases hw : mergeWrite rest t dm 6 with
    | none => rw [hw] at hm; exact absurd hm (by simp)
    | some q =>
      obtain ⟨d0, p0⟩ := q
      rw [hw] at hm
      dsimp only [Option.map] at hm
      have h2 := Option.some.inj hm
      injection h2 with h3 h4
      subst h3
      rcases mergeWrite_keys rest t dm 6 d0 p0 hrest hhead hw
        with ⟨reps, hmap, hchain, hmem⟩
      constructor
      · rw [hmap]
        refine List.chain'_map_of_chain' (fun u => List.take 255 u) ?_ hchain
        intro a b hab
        exact leBytes_take 255 _ _ (leBytes_of_lt hab)
      · intro hlen
        have hstream : ∀ x ∈ kmerge (buildBlocks docs), x.1.length ≤ 255 := by
          intro x hx
          rcases kmerge_mem _ x hx with ⟨b, hb, hxb⟩
          exact buildBlocks_keysP docs hlen b hb x hxb
        have hreps : ∀ u ∈ reps, u.length ≤ 255 := by
          intro u hu
          rcases hmem u hu with hut | ⟨s1, hs1, hu1⟩
          · rw [hut]
            exact hstream (t, dm) (by rw [hk]; exact List.mem_cons.mpr (Or.inl rfl))
          · rw [hu1]
            exact hstream s1 (by rw [hk]; exact List.mem_cons.mpr (Or.inr hs1))
        have hid : reps.map (fun u => List.take 255 u) = reps := by
          conv_rhs => rw [← List.map_id reps]
          exact List.map_congr_left
            (fun u hu => List.take_of_length_le (hreps u hu))
        rw [hmap, hid]
        exact ⟨hchain, chain_ltBytes_nodup hchain⟩

theorem claim_c6_dict_order_amended_witness :
    (List.map Prod.fst
        ([(([97] : List Nat), 6, 2), ([98], 13, 1), ([99], 17, 1)] :
          List (List Nat × Nat × Nat))).Chain' (fun a b => leBytes a b = true) ∧
    (List.map Prod.fst
        ([(([97] : List Nat), 6, 2), ([98], 13, 1), ([99], 17, 1)] :
          List (List Nat × Nat × Nat))).Chain' (fun a b => ltBytes a b = true) ∧
    (List.map Prod.fst
        ([(([97] : List Nat), 6, 2), ([98], 13, 1), ([99], 17, 1)] :
          List (List Nat × Nat × Nat))).Nodup := by
  have h := claim_c6_dict_order_amended [[[98], [97]], [[97], [99]]]
    [([97], 6, 2), ([98], 13, 1), ([99], 17, 1)]
    [80, 79, 83, 84, 3, 0, 2, 0, 1, 1, 1, 1, 0, 1, 0, 1, 0, 1, 1, 1, 1]
    (by rfl)
  exact ⟨h.1, (h.2 (by decide)).1, (h.2 (by decide)).2⟩

set_option maxRecDepth 8192 in
/-- **C6 (counterexample).** Two distinct tokens of 255 and 256 bytes
sharing their first 255 bytes produce two dictionary entries whose
serialized terms are equal: consecutive serialized terms are neither
strictly ascending nor pairwise distinct. -/
theorem claim_c6_dict_order_counterexample :
    (merge_blocks (buildBlocks
        [[List.replicate 255 97, List.replicate 256 97]])).map
        (fun p => p.1.map Prod.fst) =
      some [List.replicate 255 97, List.replicate 255 97] ∧
    ¬ List.Chain' (fun a b => ltBytes a b = true)
        [List.replicate 255 97, List.replicate 255 97] ∧
    ¬ List.Nodup [List.replicate 255 97, List.replicate 255 97] := by
  refine ⟨by rfl, ?_, fun h =>
    absurd (List.mem_singleton.mpr rfl) (List.nodup_cons.mp h).1⟩
  intro h
  have h2 := List.chain'_cons'.mp h
  have h3 : ltBytes (List.replicate 255 97) (List.replicate 255 97) = true :=
    h2.1 _ rfl
  exact absurd rfl (ne_of_ltBytes h3)

/-! ### The query engine (search.py) -/

/-- Python `\s` whitespace. -/
def isSpaceC (c : Char) : Bool :=
  c == ' ' || c == '\t' || c == '\n' || c == '\r' ||
  c == '\x0b' || c == '\x0c'

/-- A character of the word class `[^\s"&|!()/]`. -/
def isWordChar (c : Char) : Bool :=
  !(isSpaceC c || c == '"' || c == '&' || c == '|' || c == '!' ||
    c == '(' || c == ')' || c == '/')

/-- One left-to-right pass of
`re.finditer(r'"([^"]+)"|(\d+)|(&&|\|\||!|\(|\)|/)|([^\s"&|!()/]+)', q)`:
at each position try the four alternatives in order, else advance one
character.  Fuel: the string length always suffices. -/
def lexGo : Nat → List Char → List (List Char)
  | 0, _ => []
  | _, [] => []
  | fuel + 1, c :: rest =>
    if c == '"' then
      let content := rest.takeWhile (fun d => d != '"')
      match content, rest.drop content.length with
      | _ :: _, '"' :: rest2 =>
        ("PHRASE:".data ++ content) :: lexGo fuel rest2
      | _, _ => lexGo fuel rest
    else if c.isDigit then
      let digits := (c :: rest).takeWhile Char.isDigit
      ("NUM:".data ++ digits) :: lexGo fuel ((c :: rest).drop digits.length)
    else if c == '&' then
      match rest with
      | '&' :: rest2 => ['&', '&'] :: lexGo fuel rest2
      | _ => lexGo fuel rest
    else if c == '|' then
      match rest with
      | '|' :: rest2 => ['|', '|'] :: lexGo fuel rest2
      | _ => lexGo fuel rest
    else if c == '!' || c == '(' || c == ')' || c == '/' then
      [c] :: lexGo fuel rest
    else if isWordChar c then
      let w := (c :: rest).takeWhile isWordChar
      w :: lexGo fuel ((c :: rest).drop w.length)
    else
      lexGo fuel rest

/-- `SearchEngine._tokenize`: guillemets become double quotes, then the
regex scan. -/
def tokenizeQuery (q : List Char) : List (List Char) :=
  let q2 := q.map (fun c => if c == '«' || c == '»' then '"' else c)
  lexGo q2.length q2

/-- A processed query token: the tuples `('TERM', v)`, `('PHRASE', v)`,
`('PROXIMITY', v, d)` and `('OP', v)`. -/
inductive PTok where
  | term : List Char → PTok
  | phrase : List Char → PTok
  | prox : List Char → Nat → PTok
  | opTok : List Char → PTok
deriving DecidableEq

def startsWith : List Char → List Char → Bool
  | [], _ => true
  | _ :: _, [] => false
  | p :: ps, s :: ss => p == s && startsWith ps ss

/-- The operator strings of `('&&','||','!','(',')','/')`. -/
def opStrings : List (List Char) :=
  [['&', '&'], ['|', '|'], ['!'], ['('], [')'], ['/']]

/-- `t.startswith('PHRASE:') or not (t in ops or t.startswith('NUM:'))`. -/
def isOperandStr (t : List Char) : Bool :=
  startsWith "PHRASE:".data t ||
    !(opStrings.contains t || startsWith "NUM:".data t)

/-- `int(...)` on a digit string. -/
def natOfDigits (s : List Char) : Nat :=
  s.foldl (fun n c => n * 10 + (c.toNat - 48)) 0

/-- The first pass of `_evaluate_recursive`: classify tokens, folding
`word / NUM:d` triples into `PROXIMITY` tuples and dropping stray `NUM:`
and `/` tokens. -/
def classifyTok (t : List Char) : List PTok :=
  if isOperandStr t then
    [if startsWith "PHRASE:".data t then PTok.phrase (t.drop 7)
     else PTok.term t]
  else if t == ['&', '&'] || t == ['|', '|'] || t == ['!'] ||
      t == ['('] || t == [')'] then
    [PTok.opTok t]
  else []

def processTokensGo : List Char → List (List Char) → List PTok
  | t, [] => classifyTok t
  | t, [s] => classifyTok t ++ processTokensGo s []
  | t, s :: n :: rest2 =>
    if isOperandStr t && (s == ['/'] && startsWith "NUM:".data n) then
      PTok.prox (if startsWith "PHRASE:".data t then t.drop 7 else t)
        (natOfDigits (n.drop 4)) ::
        (match rest2 with
         | [] => []
         | r :: rr => processTokensGo r rr)
    else classifyTok t ++ processTokensGo s (n :: rest2)

def processTokens : List (List Char) → List PTok
  | [] => []
  | t :: rest => processTokensGo t rest

/-- `is_op1`: current token is an operator other than `)`. -/
def isOp1 : PTok → Bool
  | PTok.opTok v => v != [')']
  | _ => false

/-- `is_op2`: next token is an operator other than `(` and `!`. -/
def isOp2 : PTok → Bool
  | PTok.opTok v => !(v == ['('] || v == ['!'])
  | _ => false

/-- The implicit-`&&` insertion pass building `final_tokens`. -/
def insertAndsGo : PTok → List PTok → List PTok
  | t, [] => [t]
  | t, u :: rest =>
    if !isOp1 t && !isOp2 u then
      t :: PTok.opTok ['&', '&'] :: insertAndsGo u rest
    else t :: insertAndsGo u rest

def insertAnds : List PTok → List PTok
  | [] => []
  | t :: rest => insertAndsGo t rest

/-- `PRECEDENCE = ( 0, || 1, && 2, ! 3` with `.get(_, 0)`. -/
def PREC (v : List Char) : Nat :=
  if v == ['('] then 0
  else if v == ['|', '|'] then 1
  else if v == ['&', '&'] then 2
  else if v == ['!'] then 3
  else 0

/-- `while stack and stack[-1] != '(' and PRECEDENCE[stack[-1]] >= PRECEDENCE[val]`. -/
def popWhileGE (v : List Char) : List (List Char) →
    (List PTok × List (List Char))
  | [] => ([], [])
  | top :: rest =>
    if top != ['('] && decide (PREC v ≤ PREC top) then
      let p := popWhileGE v rest
      (PTok.opTok top :: p.1, p.2)
    else ([], top :: rest)

/-- `while stack and stack[-1] != '(': output.append(pop)` then drop `(`. -/
def popUntilParen : List (List Char) → (List PTok × List (List Char))
  | [] => ([], [])
  | top :: rest =>
    if top == ['('] then ([], rest)
    else
      let p := popUntilParen rest
      (PTok.opTok top :: p.1, p.2)

/-- The shunting-yard loop of `_evaluate_recursive`: operands go to the
output, operators are pushed after popping by precedence, the stack is
drained at the end. -/
def shuntGo : List PTok → List (List Char) → List PTok
  | [], stack => stack.map PTok.opTok
  | tok :: rest, stack =>
    match tok with
    | PTok.opTok v =>
      if v == ['('] then shuntGo rest (v :: stack)
      else if v == [')'] then
        let p := popUntilParen stack
        p.1 ++ shuntGo rest p.2
      else
        let p := popWhileGE v stack
        p.1 ++ shuntGo rest (v :: p.2)
    | t => t :: shuntGo rest stack

def toRpn (tokens : List PTok) : List PTok := shuntGo tokens []

/-- `_find_path` for `idx > 0`: the remaining candidate lists, the
previous and first matched positions. -/
def findPathGo : List (List Nat) → Nat → Nat → Nat → Bool → Bool
  | [], _, _, _, _ => true
  | cands :: rest, prev, first, maxd, exact =>
    cands.any (fun pos =>
      decide (prev < pos) &&
      (!exact || pos == prev + 1) &&
      decide ((pos : Int) - (first : Int) ≤ (maxd : Int)) &&
      findPathGo rest pos first maxd exact)

/-- `_find_path` from `idx = 0` (`prev_pos = first_pos = -1` are unused). -/
def findPath : List (List Nat) → Nat → Bool → Bool
  | [], _, _ => true
  | cands :: rest, maxd, exact =>
    cands.any (fun pos => findPathGo rest pos pos maxd exact)

/-- `_check_sequence`: `is_exact = (max_dist == len(positions_list))`. -/
def checkSequence (pls : List (List Nat)) (maxd : Nat) : Bool :=
  findPath pls maxd (maxd == pls.length)

/-- The reader/tokenizer state a `SearchEngine` sees: the loaded term
dictionary, the postings file bytes, the document count and the tokenizer
function. -/
structure QEngine where
  term_dict : List (List Nat × (Nat × Nat))
  post : List Nat
  numDocs : Nat
  tok : List Char → List (List Nat)

/-- `CompressedIndexReader.get_postings` for an engine: absent terms give
the empty map, otherwise decode the postings at the stored offset. -/
def readerGetPostings (E : QEngine) (term : List Nat) :
    Option (List (Nat × List Nat)) :=
  match assocFind term E.term_dict with
  | none => some []
  | some od => get_postings E.post od.1

/-- `set(p.keys())`. -/
def keysOf (p : List (Nat × List Nat)) : Finset Nat :=
  (p.map Prod.fst).toFinset

/-- The postings-collection loop of `_sequence_search`: outer `none` is a
decoding `IndexError`, inner `none` the early `return set()` on a term
with no postings. -/
def collectPostings (E : QEngine) :
    List (List Nat) → Option (Option (List (List (Nat × List Nat))))
  | [] => some (some [])
  | t :: ts =>
    match readerGetPostings E t with
    | none => none
    | some p =>
      if p == [] then some none
      else (collectPostings E ts).map (Option.map (fun l => p :: l))

/-- `common_docs`: the intersection of the key sets. -/
def commonDocs : List (List (Nat × List Nat)) → Finset Nat
  | [] => ∅
  | p :: ps => ps.foldl (fun acc q => acc ∩ keysOf q) (keysOf p)

/-- `_sequence_search`. -/
def sequenceSearch (E : QEngine) (terms : List (List Nat)) (maxd : Nat) :
    Option (Finset Nat) :=
  if terms == [] then some ∅
  else
    match collectPostings E terms with
    | none => none
    | some none => some ∅
    | some (some ps) =>
      some ((commonDocs ps).filter (fun d =>
        checkSequence (ps.map (fun p => (assocFind d p).getD [])) maxd = true))

/-- The `_solve_rpn` loop on an explicit stack (head = top); `none`
propagates a decoding `IndexError` out of `get_postings`. -/
def solveRpnGo (E : QEngine) : List PTok → List (Finset Nat) →
    Option (List (Finset Nat))
  | [], stack => some stack
  | tok :: rest, stack =>
    match tok with
    | PTok.term v =>
      match E.tok v with
      | [] => solveRpnGo E rest (∅ :: stack)
      | stem :: _ =>
        match readerGetPostings E stem with
        | none => none
        | some p => solveRpnGo E rest (keysOf p :: stack)
    | PTok.phrase v =>
      match sequenceSearch E (E.tok v) (E.tok v).length with
      | none => none
      | some docs => solveRpnGo E rest (docs :: stack)
    | PTok.prox v d =>
      match sequenceSearch E (E.tok v) d with
      | none => none
      | some docs => solveRpnGo E rest (docs :: stack)
    | PTok.opTok v =>
      if v == ['!'] then
        match stack with
        | [] => solveRpnGo E rest []
        | a :: st => solveRpnGo E rest ((Finset.range E.numDocs \ a) :: st)
      else if v == ['&', '&'] then
        match stack with
        | b :: a :: st => solveRpnGo E rest ((a ∩ b) :: st)
        | _ => solveRpnGo E rest stack
      else if v == ['|', '|'] then
        match stack with
        | b :: a :: st => solveRpnGo E rest ((a ∪ b) :: st)
        | _ => solveRpnGo E rest stack
      else solveRpnGo E rest stack

/-- `_solve_rpn`: run the loop on an empty stack; `stack[0] if stack else
set()` is the bottom of the stack. -/
def solve_rpn (E : QEngine) (rpn : List PTok) : Option (Finset Nat) :=
  (solveRpnGo E rpn []).map (fun stack => stack.getLast?.getD ∅)

/-- `_evaluate_recursive`. -/
def evaluateRecursive (E : QEngine) (tokens : List (List Char)) :
    Option (Finset Nat) :=
  solve_rpn E (toRpn (insertAnds (processTokens tokens)))

/-- `SearchEngine.execute`. -/
def execute (E : QEngine) (q : List Char) : Option (Finset Nat) :=
  evaluateRecursive E (tokenizeQuery q)

/-- Whitespace split (`str.split()` with no argument). -/
def splitWsGo : List Char → List Char → List (List Char)
  | [], acc => if acc == [] then [] else [acc.reverse]
  | c :: rest, acc =>
    if isSpaceC c then
      if acc == [] then splitWsGo rest []
      else acc.reverse :: splitWsGo rest []
    else splitWsGo rest (c :: acc)

/-- The identity tokenizer of the end-to-end scenario: lowercase, split on
whitespace, tokens as UTF-8/ASCII byte strings. -/
def idTokenizer (s : List Char) : List (List Nat) :=
  (splitWsGo (s.map Char.toLower) []).map (fun w => w.map Char.toNat)

/-- The 4-document corpus of the end-to-end scenario. -/
def corpusTexts : List (List Char) :=
  ["the quick brown fox".data, "the lazy brown dog".data,
   "quick fox quick fox".data, "brown bear sleeps".data]

def corpusDocsTokens : List (List (List Nat)) := corpusTexts.map idTokenizer

/-- `self.term_dict[term] = (offset, doc_count)` over the dictionary
entries in file order (later entries overwrite earlier ones). -/
def termDictOf (entries : List (List Nat × Nat × Nat)) :
    List (List Nat × (Nat × Nat)) :=
  entries.foldl (fun m e => assocSet m e.1 e.2) []

def engineOf (p : List (List Nat × Nat × Nat) × List Nat) (n : Nat)
    (tok : List Char → List (List Nat)) : QEngine :=
  ⟨termDictOf p.1, p.2, n, tok⟩

/-- The engine over the index built from the 4-document corpus with the
identity tokenizer. -/
def corpusEngine : QEngine :=
  match merge_blocks (buildBlocks corpusDocsTokens) with
  | some p => engineOf p 4 idTokenizer
  | none => ⟨[], [], 4, idTokenizer⟩

/-- **C3 (counterexample).** On the 4-document corpus with the identity
tokenizer, the phrase query `"quick fox"` returns exactly the singleton
2: document 0 (`the quick brown fox`) is not matched because the phrase
search requires exact adjacency (`is_exact` holds since
`max_dist = len(terms)`), and in D0 `quick` and `fox` are two apart.  The
claimed result 0, 2 is therefore wrong. -/
theorem claim_c3_endtoend_counterexample :
    execute corpusEngine "\"quick fox\"".data = some {2} ∧
    some ({2} : Finset Nat) ≠ some ({0, 2} : Finset Nat) := by
  refine ⟨by decide, by decide⟩

/-- **C3 (amended).** End-to-end on the 4-document corpus with the
identity tokenizer: `brown && !fox` returns 1, 3; the phrase
`"quick fox"` returns 2 (not 0, 2: exact adjacency); the phrase
`"brown dog"` returns 1; the proximity query `"the fox" / 3`
returns 0. -/
theorem claim_c3_endtoend_amended :
    execute corpusEngine "brown && !fox".data = some {1, 3} ∧
    execute corpusEngine "\"quick fox\"".data = some {2} ∧
    execute corpusEngine "\"brown dog\"".data = some {1} ∧
    execute corpusEngine "\"the fox\" / 3".data = some {0} := by
  refine ⟨by decide, by decide, by decide, by decide⟩

/-- **C7.** The `>=` comparison in the shunting-yard pop loop makes `!`
left-associative in effect: `! ! brown` converts to the RPN
`[!, brown, !]`, not the claimed `[brown, !, !]`; the leading `!` is then
silently dropped on the empty stack, so `!!brown` evaluates to the
complement 2 of the `brown` set 0, 1, 3 instead of the `brown`
set itself.  The code contradicts the spec's stated right-associativity
of `!`. -/
theorem claim_c7_not_assoc_bug :
    toRpn (insertAnds (processTokens (tokenizeQuery "! ! brown".data))) =
      [PTok.opTok ['!'], PTok.term "brown".data, PTok.opTok ['!']] ∧
    execute corpusEngine "! ! brown".data = some {2} ∧
    execute corpusEngine "brown".data = some {0, 1, 3} ∧
    some ({2} : Finset Nat) ≠ some ({0, 1, 3} : Finset Nat) := by
  refine ⟨by decide, by decide, by decide, by decide⟩

/-- **C8.** Underflow tolerance of `_solve_rpn`: `!` on an empty stack,
and `&&`/`||` on a stack with fewer than two sets, are silently skipped
(`continue`) leaving the stack unchanged; the final result is the single
set left on the stack, or the empty set when the stack ends empty. -/
theorem claim_c8_underflow_tolerance (E : QEngine) (rest rpn1 rpn2 : List PTok)
    (a r : Finset Nat) :
    (solveRpnGo E (PTok.opTok ['!'] :: rest) [] = solveRpnGo E rest []) ∧
    (solveRpnGo E (PTok.opTok ['&', '&'] :: rest) [] = solveRpnGo E rest []) ∧
    (solveRpnGo E (PTok.opTok ['&', '&'] :: rest) [a] = solveRpnGo E rest [a]) ∧
    (solveRpnGo E (PTok.opTok ['|', '|'] :: rest) [] = solveRpnGo E rest []) ∧
    (solveRpnGo E (PTok.opTok ['|', '|'] :: rest) [a] = solveRpnGo E rest [a]) ∧
    (solveRpnGo E rpn1 [] = some [r] → solve_rpn E rpn1 = some r) ∧
    (solveRpnGo E rpn2 [] = some [] → solve_rpn E rpn2 = some ∅) := by
  refine ⟨rfl, rfl, rfl, rfl, rfl, ?_, ?_⟩
  · intro h
    unfold solve_rpn
    rw [h]
    rfl
  · intro h
    unfold solve_rpn
    rw [h]
    rfl

theorem claim_c8_underflow_tolerance_witness :
    (solveRpnGo corpusEngine [PTok.opTok ['!'], PTok.term "fox".data] [] =
      solveRpnGo corpusEngine [PTok.term "fox".data] []) ∧
    solve_rpn corpusEngine [PTok.term "fox".data] = some {0, 2} ∧
    solve_rpn corpusEngine [PTok.opTok ['!']] = some ∅ := by
  have h := claim_c8_underflow_tolerance corpusEngine [PTok.term "fox".data]
    [PTok.term "fox".data] [PTok.opTok ['!']] {5} {0, 2}
  exact ⟨h.1, h.2.2.2.2.2.1 (by decide), h.2.2.2.2.2.2 (by decide)⟩

/-- Running the RPN loop over a concatenation: the second part starts
from the stack the first part produced. -/
theorem solveRpnGo_append (E : QEngine) : ∀ (xs ys : List PTok)
    (st : List (Finset Nat)),
    solveRpnGo E (xs ++ ys) st =
      (solveRpnGo E xs st).bind (fun s2 => solveRpnGo E ys s2) := by
  intro xs
  induction xs with
  | nil => intro ys st; rfl
  | cons tok xs ih =>
    intro ys st
    cases tok with
    | term v =>
      rw [List.cons_append, solveRpnGo, solveRpnGo]
      cases htok : E.tok v with
      | nil => exact ih ys (∅ :: st)
      | cons stem rest2 =>
        dsimp only
        cases hp : readerGetPostings E stem with
        | none => rfl
        | some p => exact ih ys _
    | phrase v =>
      rw [List.cons_append, solveRpnGo, solveRpnGo]
      cases hs : sequenceSearch E (E.tok v) (E.tok v).length with
      | none => rfl
      | some docs => exact ih ys _
    | prox v d =>
      rw [List.cons_append, solveRpnGo, solveRpnGo]
      cases hs : sequenceSearch E (E.tok v) d with
      | none => rfl
      | some docs => exact ih ys _
    | opTok v =>
      rw [List.cons_append]
      simp only [solveRpnGo]
      by_cases h1 : (v == ['!']) = true
      · rw [h1]
        cases st with
        | nil => exact ih ys []
        | cons a st' => exact ih ys _
      · rw [Bool.eq_false_iff.mpr h1]
        by_cases h2 : (v == ['&', '&']) = true
        · rw [h2]
          cases st with
          | nil => exact ih ys _
          | cons b st' =>
            cases st' with
            | nil => exact ih ys _
            | cons a st'' => exact ih ys _
        · rw [Bool.eq_false_iff.mpr h2]
          by_cases h3 : (v == ['|', '|']) = true
          · rw [h3]
            cases st with
            | nil => exact ih ys _
            | cons b st' =>
              cases st' with
              | nil => exact ih ys _
              | cons a st'' => exact ih ys _
          · rw [Bool.eq_false_iff.mpr h3]
            exact ih ys _

/-- **C4.** Boolean laws of the RPN evaluator: for any subexpressions
(RPN fragments that deterministically push one set each) evaluating to
`A`, `B`, `C`, with `A` inside the universe `range numDocs`:
`A && !A` is empty, `A || !A` is the universe, `!(!A)` is `A`, `&&` is
commutative, and `||` distributes over `&&`. -/
theorem claim_c4_boolean_laws (E : QEngine) (sA sB sC : List PTok)
    (A B C : Finset Nat)
    (hA : ∀ st, solveRpnGo E sA st = some (A :: st))
    (hB : ∀ st, solveRpnGo E sB st = some (B :: st))
    (hC : ∀ st, solveRpnGo E sC st = some (C :: st))
    (hAU : A ⊆ Finset.range E.numDocs) :
    solve_rpn E (sA ++ sA ++ [PTok.opTok ['!'], PTok.opTok ['&', '&']]) =
      some ∅ ∧
    solve_rpn E (sA ++ sA ++ [PTok.opTok ['!'], PTok.opTok ['|', '|']]) =
      some (Finset.range E.numDocs) ∧
    solve_rpn E (sA ++ [PTok.opTok ['!'], PTok.opTok ['!']]) = some A ∧
    solve_rpn E (sA ++ sB ++ [PTok.opTok ['&', '&']]) =
      solve_rpn E (sB ++ sA ++ [PTok.opTok ['&', '&']]) ∧
    solve_rpn E (sA ++ (sB ++ sC ++ [PTok.opTok ['&', '&']]) ++
        [PTok.opTok ['|', '|']]) =
      solve_rpn E ((sA ++ sB ++ [PTok.opTok ['|', '|']]) ++
        ((sA ++ sC ++ [PTok.opTok ['|', '|']]) ++ [PTok.opTok ['&', '&']])) := by
  have r1 : ∀ st, solveRpnGo E
      (sA ++ sA ++ [PTok.opTok ['!'], PTok.opTok ['&', '&']]) st =
      some ((A ∩ (Finset.range E.numDocs \ A)) :: st) := by
    intro st
    simp only [solveRpnGo_append, hA, Option.some_bind]
    rfl
  have r2 : ∀ st, solveRpnGo E
      (sA ++ sA ++ [PTok.opTok ['!'], PTok.opTok ['|', '|']]) st =
      some ((A ∪ (Finset.range E.numDocs \ A)) :: st) := by
    intro st
    simp only [solveRpnGo_append, hA, Option.some_bind]
    rfl
  have r3 : ∀ st, solveRpnGo E (sA ++ [PTok.opTok ['!'], PTok.opTok ['!']]) st =
      some ((Finset.range E.numDocs \ (Finset.range E.numDocs \ A)) :: st) := by
    intro st
    simp only [solveRpnGo_append, hA, Option.some_bind]
    rfl
  have r4a : ∀ st, solveRpnGo E (sA ++ sB ++ [PTok.opTok ['&', '&']]) st =
      some ((A ∩ B) :: st) := by
    intro st
    simp only [solveRpnGo_append, hA, hB, Option.some_bind]
    rfl
  have r4b : ∀ st, solveRpnGo E (sB ++ sA ++ [PTok.opTok ['&', '&']]) st =
      some ((B ∩ A) :: st) := by
    intro st
    simp only [solveRpnGo_append, hA, hB, Option.some_bind]
    rfl
  have r5a : ∀ st, solveRpnGo E (sA ++ (sB ++ sC ++ [PTok.opTok ['&', '&']]) ++
      [PTok.opTok ['|', '|']]) st = some ((A ∪ (B ∩ C)) :: st) := by
    intro st
    simp only [solveRpnGo_append, hA, hB, hC, Option.some_bind]
    rfl
  have r5b : ∀ st, solveRpnGo E ((sA ++ sB ++ [PTok.opTok ['|', '|']]) ++
      ((sA ++ sC ++ [PTok.opTok ['|', '|']]) ++ [PTok.opTok ['&', '&']])) st =
      some (((A ∪ B) ∩ (A ∪ C)) :: st) := by
    intro st
    simp only [solveRpnGo_append, hA, hB, hC, Option.some_bind]
    rfl
  refine ⟨?_, ?_, ?_, ?_, ?_⟩
  · unfold solve_rpn
    rw [r1, Finset.inter_sdiff_self]
    rfl
  · unfold solve_rpn
    rw [r2, Finset.union_sdiff_of_subset hAU]
    rfl
  · unfold solve_rpn
    rw [r3, Finset.sdiff_sdiff_eq_self hAU]
    rfl
  · unfold solve_rpn
    rw [r4a, r4b, Finset.inter_comm]
  · unfold solve_rpn
    rw [r5a, r5b, Finset.union_inter_distrib_left]

set_option maxRecDepth 10000 in
theorem claim_c4_boolean_laws_witness :
    solve_rpn corpusEngine ([PTok.term "brown".data] ++ [PTok.term "brown".data] ++
      [PTok.opTok ['!'], PTok.opTok ['&', '&']]) = some ∅ ∧
    solve_rpn corpusEngine ([PTok.term "brown".data] ++ [PTok.term "brown".data] ++
      [PTok.opTok ['!'], PTok.opTok ['|', '|']]) =
      some (Finset.range corpusEngine.numDocs) ∧
    solve_rpn corpusEngine ([PTok.term "brown".data] ++
      [PTok.opTok ['!'], PTok.opTok ['!']]) = some {0, 1, 3} ∧
    solve_rpn corpusEngine ([PTok.term "brown".data] ++ [PTok.term "fox".data] ++
      [PTok.opTok ['&', '&']]) =
      solve_rpn corpusEngine ([PTok.term "fox".data] ++ [PTok.term "brown".data] ++
        [PTok.opTok ['&', '&']]) ∧
    solve_rpn corpusEngine ([PTok.term "brown".data] ++
        ([PTok.term "fox".data] ++ [PTok.term "quick".data] ++
          [PTok.opTok ['&', '&']]) ++ [PTok.opTok ['|', '|']]) =
      solve_rpn corpusEngine (([PTok.term "brown".data] ++ [PTok.term "fox".data] ++
          [PTok.opTok ['|', '|']]) ++
        (([PTok.term "brown".data] ++ [PTok.term "quick".data] ++
          [PTok.opTok ['|', '|']]) ++ [PTok.opTok ['&', '&']])) :=
  claim_c4_boolean_laws corpusEngine [PTok.term "brown".data]
    [PTok.term "fox".data] [PTok.term "quick".data] {0, 1, 3} {0, 2} {0, 2}
    (fun _ => rfl) (fun _ => rfl) (fun _ => rfl) (by decide)

/-! ### The tokenizer subprocess client (tokenizer_wrapper.py) -/

/-- `str.strip()`. -/
def stripChars (l : List Char) : List Char :=
  ((l.dropWhile isSpaceC).reverse.dropWhile isSpaceC).reverse

/-- The observable state of the tokenizer child process: whether writing
to its stdin succeeds, and the lines still readable from its stdout
before end-of-file. -/
structure TokenizerClient where
  stdinOk : Bool
  stdoutLines : List (List Char)

/-- The stdout read loop of `tokenize`: stop at end-of-file or at the
`__END_DOC__` sentinel, collect non-blank stripped lines. -/
def readLinesLoop : List (List Char) → List (List Char)
  | [] => []
  | line :: rest =>
    let s := stripChars line
    if s == "__END_DOC__".data then []
    else if s == [] then readLinesLoop rest
    else s :: readLinesLoop rest

/-- `TokenizerClient.tokenize`: empty text gives no tokens; a broken
stdin pipe gives no tokens; otherwise read lines until sentinel or
end-of-file. -/
def tokenize (c : TokenizerClient) (text : List Char) : List (List Char) :=
  if text == [] then []
  else if !c.stdinOk then []
  else readLinesLoop c.stdoutLines

/-- **C9 (counterexample).** A child that died after emitting one line
(stdout ends before the `__END_DOC__` sentinel) makes `tokenize` return
that line, not the empty sequence the claim requires. -/
theorem claim_c9_tokenizer_failure_counterexample :
    tokenize ⟨true, [['t', 'o', 'k', '1']]⟩ ['x'] = [['t', 'o', 'k', '1']] ∧
    [['t', 'o', 'k', '1']] ≠ ([] : List (List Char)) := by
  refine ⟨by decide, by decide⟩

/-- **C9 (amended).** If the child's stdin pipe is broken, `tokenize`
returns no tokens; if its stdout is already at end-of-file, `tokenize`
returns no tokens; empty text returns no tokens; and when stdout ends
before the sentinel, `tokenize` returns exactly the non-blank stripped
lines read so far (no exception) — possibly a non-empty sequence. -/
theorem claim_c9_tokenizer_failure_amended (text : List Char)
    (lines : List (List Char)) :
    tokenize ⟨false, lines⟩ text = [] ∧
    tokenize ⟨true, []⟩ text = [] ∧
    (∀ ok, tokenize ⟨ok, lines⟩ [] = []) ∧
    (text ≠ [] → tokenize ⟨true, lines⟩ text = readLinesLoop lines) := by
  refine ⟨?_, ?_, ?_, ?_⟩
  · unfold tokenize
    by_cases h : (text == []) = true
    · rw [if_pos h]
    · rw [if_neg h]; rfl
  · unfold tokenize
    by_cases h : (text == []) = true
    · rw [if_pos h]
    · rw [if_neg h]; rfl
  · intro ok
    unfold tokenize
    rw [if_pos (by rfl)]
  · intro h
    unfold tokenize
    rw [if_neg (by simpa using h)]
    rfl

theorem claim_c9_tokenizer_failure_amended_witness :
    tokenize ⟨false, [['a']]⟩ ['x'] = [] ∧
    tokenize ⟨true, []⟩ ['x'] = [] ∧
    tokenize ⟨true, [['a']]⟩ [] = [] ∧
    tokenize ⟨true, [['a']]⟩ ['x'] = readLinesLoop [['a']] := by
  have h := claim_c9_tokenizer_failure_amended ['x'] [['a']]
  exact ⟨h.1, h.2.1, h.2.2.1 true, h.2.2.2 (by decide)⟩

/-! ### Index file loaders (search.py `_load_docs` / `_load_dict`) -/

/-- A little-endian unsigned integer from its byte string. -/
def leNum : List Nat → Nat
  | [] => 0
  | b :: rest => b + 256 * leNum rest

/-- `struct.unpack` over `f.read(n)` at an absolute position: fails
(`struct.error`) unless `n` bytes are available. -/
def readExact (file : List Nat) (pos n : Nat) : Option (List Nat) :=
  if pos + n ≤ file.length then some ((file.drop pos).take n) else none

/-- Strict UTF-8 decoding (`bytes.decode('utf-8')`): rejects stray or
missing continuation bytes, overlong forms, surrogates and code points
beyond U+10FFFF.  Fuel: the byte count always suffices. -/
def utf8DecodeGo : Nat → List Nat → Option (List Char)
  | _, [] => some []
  | 0, _ :: _ => none
  | fuel + 1, b :: rest =>
    if b < 128 then (utf8DecodeGo fuel rest).map (fun cs => Char.ofNat b :: cs)
    else if b < 194 then none
    else if b < 224 then
      match rest with
      | b2 :: rest2 =>
        if 128 ≤ b2 ∧ b2 < 192 then
          (utf8DecodeGo fuel rest2).map
            (fun cs => Char.ofNat ((b - 192) * 64 + (b2 - 128)) :: cs)
        else none
      | [] => none
    else if b < 240 then
      match rest with
      | b2 :: b3 :: rest2 =>
        let cp := (b - 224) * 4096 + (b2 - 128) * 64 + (b3 - 128)
        if 128 ≤ b2 ∧ b2 < 192 ∧ 128 ≤ b3 ∧ b3 < 192 ∧ 2048 ≤ cp ∧
            ¬(55296 ≤ cp ∧ cp < 57344) then
          (utf8DecodeGo fuel rest2).map (fun cs => Char.ofNat cp :: cs)
        else none
      | _ => none
    else if b < 245 then
      match rest with
      | b2 :: b3 :: b4 :: rest2 =>
        let cp := (b - 240) * 262144 + (b2 - 128) * 4096 +
          (b3 - 128) * 64 + (b4 - 128)
        if 128 ≤ b2 ∧ b2 < 192 ∧ 128 ≤ b3 ∧ b3 < 192 ∧ 128 ≤ b4 ∧
            b4 < 192 ∧ 65536 ≤ cp ∧ cp < 1114112 then
          (utf8DecodeGo fuel rest2).map (fun cs => Char.ofNat cp :: cs)
        else none
      | _ => none
    else none

def utf8Decode (bs : List Nat) : Option (List Char) :=
  utf8DecodeGo bs.length bs

/-- One entry of `doc_infos`. -/
structure DocInfo where
  url : List Char
  title : List Char
deriving DecidableEq

/-- The per-offset body of `_load_docs`: url length and bytes, and for
version `>= 3` a title length and bytes (`f.read` reads at most what is
left, so a short url read just advances to end-of-file). -/
def parseDocEntry (file : List Nat) (ver off : Nat) : Option DocInfo :=
  match readExact file off 2 with
  | none => none
  | some ulb =>
    let urlBytes := (file.drop (off + 2)).take (leNum ulb)
    match utf8Decode urlBytes with
    | none => none
    | some url =>
      if 3 ≤ ver then
        let pos := off + 2 + urlBytes.length
        match readExact file pos 2 with
        | none => none
        | some tlb =>
          match utf8Decode ((file.drop (pos + 2)).take (leNum tlb)) with
          | none => none
          | some title => some ⟨url, title⟩
      else some ⟨url, []⟩

def parseDocsGo (file : List Nat) (ver : Nat) : List Nat → Option (List DocInfo)
  | [] => some []
  | off :: rest =>
    match parseDocEntry file ver off with
    | none => none
    | some d => (parseDocsGo file ver rest).map (fun ds => d :: ds)

/-- The offset table: `count` unsigned 8-byte integers. -/
def readOffsets (file : List Nat) : Nat → Nat → Option (List Nat)
  | _, 0 => some []
  | pos, k + 1 =>
    match readExact file pos 8 with
    | none => none
    | some ob => (readOffsets file (pos + 8) k).map (fun os => leNum ob :: os)

/-- `_load_docs`: only the 4-byte magic is validated; the version is
read and used solely to decide whether titles are present. -/
def load_docs (file : List Nat) : Option (List DocInfo) :=
  if file.take 4 ≠ [68, 79, 67, 83] then none
  else
    match readExact file 4 2 with
    | none => none
    | some vb =>
      match readExact file 6 4 with
      | none => none
      | some cb =>
        match readOffsets file 10 (leNum cb) with
        | none => none
        | some offs => parseDocsGo file (leNum vb) offs

/-- The sequential entry loop of `_load_dict`; the term dictionary is
built by `term_dict[term] = (offset, doc_count)` (overwrite on repeats). -/
def parseDictGo (file : List Nat) : Nat → Nat →
    List (List Char × (Nat × Nat)) → Option (List (List Char × (Nat × Nat)))
  | 0, _, acc => some acc
  | k + 1, pos, acc =>
    match readExact file pos 1 with
    | none => none
    | some lb =>
      let termBytes := (file.drop (pos + 1)).take (leNum lb)
      match utf8Decode termBytes with
      | none => none
      | some term =>
        let pos2 := pos + 1 + termBytes.length
        match readExact file pos2 8 with
        | none => none
        | some ob =>
          match readExact file (pos2 + 8) 4 with
          | none => none
          | some cb =>
            parseDictGo file k (pos2 + 12)
              (assocSet acc term (leNum ob, leNum cb))

/-- `_load_dict`: only the 4-byte magic is validated; the version is
read and discarded. -/
def load_dict (file : List Nat) : Option (List (List Char × (Nat × Nat))) :=
  if file.take 4 ≠ [68, 73, 67, 84] then none
  else
    match readExact file 4 2 with
    | none => none
    | some _ =>
      match readExact file 6 4 with
      | none => none
      | some cb => parseDictGo file (leNum cb) 10 []

/-- **C5 (counterexample).** A DOCS file with correct magic, version 2
and zero documents, and a DICT file with correct magic and version 99,
are both accepted (loaded without error), although the claim requires
any version other than 3 to be rejected. -/
theorem claim_c5_version_validation_counterexample :
    load_docs [68, 79, 67, 83, 2, 0, 0, 0, 0, 0] = some [] ∧
    load_dict [68, 73, 67, 84, 99, 0, 0, 0, 0, 0] = some [] := by
  refine ⟨by decide, by decide⟩

/-- **C5 (amended).** The readers validate only the 4-byte magic: a file
whose magic differs is rejected with an error and nothing is loaded.  The
version is never checked (the counterexample loads version-2 and
version-99 files); in `_load_docs` it only selects whether titles are
parsed, and in `_load_dict` it is read and discarded. -/
theorem claim_c5_version_validation_amended (docsFile dictFile : List Nat)
    (hd : docsFile.take 4 ≠ [68, 79, 67, 83])
    (ht : dictFile.take 4 ≠ [68, 73, 67, 84]) :
    load_docs docsFile = none ∧ load_dict dictFile = none := by
  constructor
  · unfold load_docs
    rw [if_pos hd]
  · unfold load_dict
    rw [if_pos ht]

theorem claim_c5_version_validation_amended_witness :
    load_docs [68, 79, 67, 84] = none ∧ load_dict [68, 79, 67, 83] = none := by
  have h := claim_c5_version_validation_amended [68, 79, 67, 84]
    [68, 79, 67, 83] (by decide) (by decide)
  exact h

/-! ### Document lookup (search.py `get_doc_info` / `get_doc_url`) -/

/-- `CompressedIndexReader.get_doc_info` on an arbitrary integer id. -/
def get_doc_info (doc_infos : List DocInfo) (doc_id : Int) : DocInfo :=
  if 0 ≤ doc_id ∧ doc_id < doc_infos.length then
    doc_infos.getD doc_id.toNat ⟨[], []⟩
  else ⟨[], []⟩

/-- `CompressedIndexReader.get_doc_url`. -/
def get_doc_url (doc_infos : List DocInfo) (doc_id : Int) : List Char :=
  (get_doc_info doc_infos doc_id).url

/-- **C10.** Total document lookup: `get_doc_info` never fails; inside
`[0, N)` it returns the loaded record at that index, outside (negative or
too large) it returns the record with empty url and empty title, and
`get_doc_url` returns the empty string there. -/
theorem claim_c10_doc_lookup_total (doc_infos : List DocInfo) (doc_id : Int) :
    (∀ (h1 : 0 ≤ doc_id) (h2 : doc_id < doc_infos.length),
      get_doc_info doc_infos doc_id = doc_infos.get ⟨doc_id.toNat, by omega⟩) ∧
    (doc_id < 0 ∨ (doc_infos.length : Int) ≤ doc_id →
      get_doc_info doc_infos doc_id = ⟨[], []⟩ ∧
      get_doc_url doc_infos doc_id = []) := by
  constructor
  · intro h1 h2
    unfold get_doc_info
    rw [if_pos ⟨h1, h2⟩]
    exact List.getD_eq_get _ _ _
  · intro h
    have hn : ¬(0 ≤ doc_id ∧ doc_id < (doc_infos.length : Int)) := by omega
    refine ⟨?_, ?_⟩
    · unfold get_doc_info
      rw [if_neg hn]
    · unfold get_doc_url get_doc_info
      rw [if_neg hn]

theorem claim_c10_doc_lookup_total_witness :
    get_doc_info [⟨"u0".data, "t0".data⟩] 0 = ⟨"u0".data, "t0".data⟩ ∧
    get_doc_info [⟨"u0".data, "t0".data⟩] (-1) = ⟨[], []⟩ ∧
    get_doc_url [⟨"u0".data, "t0".data⟩] 5 = [] := by
  have h1 := (claim_c10_doc_lookup_total [⟨"u0".data, "t0".data⟩] 0).1
    (by decide) (by decide)
  have h2 := (claim_c10_doc_lookup_total [⟨"u0".data, "t0".data⟩] (-1)).2
    (by decide)
  have h3 := (claim_c10_doc_lookup_total [⟨"u0".data, "t0".data⟩] 5).2
    (by decide)
  exact ⟨by rw [h1]; rfl, h2.1, h3.2⟩
